import Mathlib

/-!
# A verification development for the robust-lsp language server

This file gives a shallow embedding, in Lean, of the parts of the
robust-lsp code base (a language server for SpaceStation-14 projects)
that its specification talks about, together with theorems settling the
specification's claims against that embedding.

Conventions used throughout the embedding:

* Rust `String`/`&str` values are Lean `String`s; helpers such as
  `trim_matches` are re-implemented on `List Char` with Rust semantics.
* The concurrent hash sets of the symbol index (keyed by logical
  identity) are modelled as Lean lists together with a
  "no two elements share an identity" invariant; `HashSet::insert`,
  `HashSet::remove` and `contains` are modelled by `hsInsert`,
  `hsRemove` and `hsContains` below, which reproduce the `std`
  semantics (`insert` is a no-op when an equal element is present).
* `rayon`'s `par_iter().find_any(..)` is determinised as "first
  match"; this is only used on hash sets whose identity invariant
  makes the match unique.
* `tree_sitter` trees are embedded as the inductive `TSNode`, carrying
  exactly the data the code reads through the tree-sitter API (node
  kind, source text of the node, source range, ordered children with
  their named-ness flag, and field-name links).
* The external crates `stringcase` (`camel_case` / `pascal_case`) and
  `strsim` (`jaro_winkler`, an `f64` metric) are out of scope for the
  specification; functions from them are abstracted as explicit
  function parameters, universally quantified in every theorem, with
  `f64` similarity scores abstracted as rationals.
-/

namespace RobustLsp

/-! ## Rust string primitives -/

/-- The Unicode `White_Space` code points: the characters accepted by
Rust's `char::is_whitespace`. -/
def rustIsWhitespace (c : Char) : Bool :=
  c.toNat ∈ [0x09, 0x0A, 0x0B, 0x0C, 0x0D, 0x20, 0x85, 0xA0, 0x1680,
    0x2000, 0x2001, 0x2002, 0x2003, 0x2004, 0x2005, 0x2006, 0x2007,
    0x2008, 0x2009, 0x200A, 0x2028, 0x2029, 0x202F, 0x205F, 0x3000]

/-- Model of `str::trim_matches(c)` on a character list: repeatedly strip `c`
from both ends. -/
def trimMatchesList (c : Char) (l : List Char) : List Char :=
  ((l.dropWhile (· == c)).reverse.dropWhile (· == c)).reverse

/-- Rust `str::trim_matches` with a single-character pattern. -/
def rustTrimMatches (s : String) (c : Char) : String :=
  ⟨trimMatchesList c s.data⟩

/-- Model of `str::trim_end_matches(c)` on a character list. -/
def trimEndMatchesList (c : Char) (l : List Char) : List Char :=
  (l.reverse.dropWhile (· == c)).reverse

/-- Rust `str::trim_end_matches` with a single-character pattern. -/
def rustTrimEndMatches (s : String) (c : Char) : String :=
  ⟨trimEndMatchesList c s.data⟩

/-- Model of `str::trim_start_matches(pat)` with a string pattern: repeatedly
strip the prefix `pat`. -/
def trimStartMatchesStrList (pat : List Char) (l : List Char) : List Char :=
  if h : pat ≠ [] ∧ pat.isPrefixOf l then
    trimStartMatchesStrList pat (l.drop pat.length)
  else l
termination_by l.length
decreasing_by
  rcases h with ⟨hne, hpre⟩
  have hlen : ∀ (p q : List Char), p.isPrefixOf q = true → p.length ≤ q.length := by
    intro p
    induction p with
    | nil => intro q _; exact Nat.zero_le _
    | cons a as ih =>
      intro q hq
      cases q with
      | nil => simp [List.isPrefixOf] at hq
      | cons b bs =>
        simp only [List.isPrefixOf, Bool.and_eq_true] at hq
        simpa [Nat.succ_le_succ_iff] using ih bs hq.2
  have hlen2 := hlen pat l hpre
  have hpos : 0 < pat.length := List.length_pos.mpr hne
  simp only [List.length_drop]
  omega

/-- Rust `str::trim_start_matches` with a string pattern. -/
def rustTrimStartMatchesStr (s pat : String) : String :=
  ⟨trimStartMatchesStrList pat.data s.data⟩

/-- Rust `str::starts_with` with a string pattern (byte comparison,
done on the character lists). -/
def rustStartsWith (s pat : String) : Bool :=
  pat.data.isPrefixOf s.data

/-- Rust `str::ends_with` with a string pattern. -/
def rustEndsWith (s pat : String) : Bool :=
  pat.data.isSuffixOf s.data

/-- Model of `str::trim` on a character list (Unicode whitespace from both ends). -/
def rustTrimList (l : List Char) : List Char :=
  ((l.dropWhile rustIsWhitespace).reverse.dropWhile rustIsWhitespace).reverse

/-- Split a character list at every occurrence of `c` (the separators
are consumed; the result always has at least one part). -/
def splitOnCharList (c : Char) : List Char → List (List Char)
  | [] => [[]]
  | x :: xs =>
    match splitOnCharList c xs with
    | [] => [[]]
    | h :: t => if x == c then [] :: h :: t else (x :: h) :: t

/-- Rust `str::lines()`: split at `\n`, dropping one trailing empty
line produced by a final newline and stripping a trailing `\r` from
every line.  On the empty string the iterator is empty. -/
def rustLines (s : String) : List String :=
  if s.data = [] then []
  else
    let parts := splitOnCharList '\n' s.data
    let parts := if s.data.getLast? = some '\n' then parts.dropLast else parts
    parts.map fun l => ⟨if l.getLast? = some '\r' then l.dropLast else l⟩

/-- Truncation to 32 bits, the effect of Rust's `as u32` on an
in-range `usize`. -/
def u32 (n : Nat) : Nat := n % 2 ^ 32

/-- Wrapping `u32` subtraction (release-mode `a - b` on `u32`),
assuming both arguments are already reduced mod `2^32`. -/
def u32sub (a b : Nat) : Nat := (a + 2 ^ 32 - b) % 2 ^ 32

/-! ## Data model: source locations and the C# class records

Mirrors `src/parse/common.rs` and `src/parse/structs/csharp.rs`. -/

/-- Model of `tree_sitter::Range`: a source range in rows/columns and bytes. -/
structure TSRange where
  startRow : Nat
  startCol : Nat
  endRow : Nat
  endCol : Nat
  startByte : Nat
  endByte : Nat
deriving DecidableEq

/-- Model of `DefinitionIndex(PathBuf, Option<Range>)`: origin path plus the
range of the defining token. -/
structure DefinitionIndex where
  path : String
  range : Option TSRange
deriving DecidableEq

/-- Model of `CsharpAttributeArgumentType`.  The `Real(f64)` payload is
abstracted as a rational number (no claim inspects it). -/
inductive CsharpAttributeArgumentType where
  | noneV : CsharpAttributeArgumentType
  | stringV : String → CsharpAttributeArgumentType
  | boolV : Bool → CsharpAttributeArgumentType
  | realV : ℚ → CsharpAttributeArgumentType
  | intV : Int → CsharpAttributeArgumentType
  | typeOfV : CsharpAttributeArgumentType → CsharpAttributeArgumentType
  | genericTypeV : String → List CsharpAttributeArgumentType → CsharpAttributeArgumentType

/-- Model of `CsharpAttributeArgument { index, name, value }`. -/
structure CsharpAttributeArgument where
  index : Nat
  name : String
  value : CsharpAttributeArgumentType

/-- Model of `CsharpAttribute { name, arguments }`; the `HashMap<String, _>` of
arguments is modelled as an association list with unique keys. -/
structure CsharpAttribute where
  name : String
  arguments : List (String × CsharpAttributeArgument)

/-- Model of `HashMap::get` on the argument map. -/
def argsGet (args : List (String × CsharpAttributeArgument)) (key : String) :
    Option CsharpAttributeArgument :=
  (args.find? fun a => a.1 == key).map (·.2)

/-- Model of `CsharpAttributeCollection::get` (`find_any` by attribute name,
determinised as the first match). -/
def attrsGet (attrs : List CsharpAttribute) (name : String) : Option CsharpAttribute :=
  attrs.find? fun a => a.name == name

/-- Model of `CsharpAttributeCollection::contains`. -/
def attrsContains (attrs : List CsharpAttribute) (name : String) : Bool :=
  attrs.any fun a => a.name == name

/-- Model of `CsharpClassField`. -/
structure CsharpClassField where
  name : String
  type_name : String
  attributes : List CsharpAttribute
  modifiers : List String
  index : DefinitionIndex

/-- Model of `CsharpObject`: a parsed class or interface record. -/
structure CsharpObject where
  name : String
  base : List String
  attributes : List CsharpAttribute
  fields : List CsharpClassField
  modifiers : List String
  index : DefinitionIndex

/-- Model of `CsharpClassField::get_data_field_name`.  `camelCase` abstracts
`stringcase::camel_case`. -/
def get_data_field_name (camelCase : String → String) (f : CsharpClassField) : String :=
  match attrsGet f.attributes "DataField" with
  | some attr =>
    match argsGet attr.arguments "tag" with
    | some arg =>
      match arg.value with
      | .stringV tag => rustTrimMatches tag '"'
      | _ => camelCase f.name
    | none => camelCase f.name
  | none =>
    if attrsContains f.attributes "IncludeDataField" then
      if rustTrimEndMatches f.type_name '?' == "SpriteSpecifier.Rsi"
          || rustTrimEndMatches f.type_name '?' == "SpriteSpecifier" then
        "sprite"
      else camelCase f.name
    else camelCase f.name

/-! ## Reflection resolver (`ReflectionManager` and the class views) -/

/-- Model of `ReflectionManager::get_fields`: resolve every base name against
the class table (silently skipping misses), then append the class
itself, and concatenate the field lists in that order.  The class
table (`HashSet<Arc<CsharpObject>>` keyed by name) is a list; the
`find_any` is determinised as the first match. -/
def get_fields (classes : List CsharpObject) (c : CsharpObject) : List CsharpClassField :=
  let bases :=
    ((c.base.map fun b => classes.find? fun k => k.name == b).filterMap id) ++ [c]
  bases.foldl (fun fields b => fields ++ b.fields) []

/-- The success condition of `impl TryFrom<Arc<CsharpObject>> for Prototype`. -/
def prototypeTryFrom (c : CsharpObject) : Bool :=
  c.base.contains "IPrototype" && attrsContains c.attributes "Prototype"

/-- The success condition of `impl TryFrom<Arc<CsharpObject>> for Component`.
The source expression is
`class.attributes.contains("RegisterComponent") && class.base.contains(&"Component")
 || class.base.contains(&"IComponent")`,
whose `&&` binds tighter than `||`. -/
def componentTryFrom (c : CsharpObject) : Bool :=
  attrsContains c.attributes "RegisterComponent" && c.base.contains "Component"
    || c.base.contains "IComponent"

/-- Model of `ReflectionManager::get_prototype_by_name`.  `pascalCase`
abstracts `stringcase::pascal_case`. -/
def get_prototype_by_name (pascalCase : String → String)
    (classes : List CsharpObject) (name : String) : Option CsharpObject :=
  let normalized_name := pascalCase name
  let found := classes.find? fun c =>
    c.name == normalized_name || c.name == normalized_name ++ "Prototype" ||
      (match attrsGet c.attributes "Prototype" with
       | some attr =>
         match argsGet attr.arguments "type" with
         | some arg =>
           match arg.value with
           | .stringV tag => rustTrimMatches tag '"' == name
           | _ => false
         | none => false
       | none => false)
  found.bind fun c => if prototypeTryFrom c then some c else none

/-- Model of `ReflectionManager::get_component_by_name`. -/
def get_component_by_name (classes : List CsharpObject) (name : String) :
    Option CsharpObject :=
  let found := classes.find? fun c =>
    (c.name == name || c.name == name ++ "Component")
      && attrsContains c.attributes "RegisterComponent"
      && (c.base.contains "Component" || c.base.contains "IComponent")
  found.bind fun c => if componentTryFrom c then some c else none

/-- Model of `Prototype::get_prototype_name`. -/
def get_prototype_name (pascalCase : String → String) (c : CsharpObject) : String :=
  let fromAttr : Option String :=
    match attrsGet c.attributes "Prototype" with
    | some attr =>
      match argsGet attr.arguments "type" with
      | some arg =>
        match arg.value with
        | .stringV type_name => some (pascalCase (rustTrimMatches type_name '"'))
        | _ => none
      | none => none
    | none => none
  let name := fromAttr.getD c.name
  if rustEndsWith name "Prototype" then ⟨name.data.take (name.length - 9)⟩ else name

/-- Model of `Component::get_component_name`. -/
def get_component_name (pascalCase : String → String) (c : CsharpObject) : String :=
  pascalCase (if rustEndsWith c.name "Component"
    then ⟨c.name.data.take (c.name.length - 9)⟩ else c.name)

/-! ## Symbol index records and the hash-set model -/

/-- Model of `YamlPrototype`: a parsed YAML prototype instance.  Identity
(`PartialEq`/`Hash`) is the `(prototype, id)` pair. -/
structure YamlPrototype where
  prototype : String
  id : String
  parents : List String
  index : DefinitionIndex
deriving DecidableEq

/-- Model of `FluentKey`: a locale key.  Identity is `key` alone. -/
structure FluentKey where
  key : String
  args : List String
  index : DefinitionIndex
deriving DecidableEq

/-- The identity given by `impl PartialEq/Hash for YamlPrototype`. -/
def yamlEq (a b : YamlPrototype) : Bool :=
  a.prototype == b.prototype && a.id == b.id

/-- The identity given by `impl PartialEq/Hash for CsharpObject`
(`self.name == other.name`). -/
def csharpEq (a b : CsharpObject) : Bool := a.name == b.name

/-- Model of `HashSet::contains` / `Vec::contains` under the equality `eq`. -/
def hsContains {α : Type} (eq : α → α → Bool) (l : List α) (x : α) : Bool :=
  l.any fun y => eq y x

/-- Model of `HashSet::insert` under the equality `eq`: a NO-OP when an equal
element is already stored (the `std` semantics — the set keeps the old
element and discards the new one). -/
def hsInsert {α : Type} (eq : α → α → Bool) (l : List α) (x : α) : List α :=
  if l.any fun y => eq y x then l else l ++ [x]

/-- Model of `HashSet::remove` under the equality `eq`: removes the (unique,
under the set invariant) stored element equal to `x`. -/
def hsRemove {α : Type} (eq : α → α → Bool) (l : List α) (x : α) : List α :=
  l.eraseP fun y => eq y x

/-- The differential index commit performed by `Backend::did_save` for
one table (both the `"cs"` and the `"yml"/"yaml"` arms have exactly
this shape): compute the stale records (`diff`) — records whose origin
path is the saved path and that are absent, under the table identity,
from the new parse — then insert every parsed record, then remove the
stale records. -/
def saveCommit {α : Type} (eq : α → α → Bool) (pathOf : α → String)
    (table : List α) (path : String) (parsed : List α) : List α :=
  let diff := table.filter fun r =>
    pathOf r == path && !(parsed.any fun q => eq q r)
  let afterInsert := parsed.foldl (fun acc q => hsInsert eq acc q) table
  diff.foldl (fun acc d => hsRemove eq acc d) afterInsert

/-- The `"yml" | "yaml"` arm of `Backend::did_save` on the prototype
table. -/
def didSaveYamlCommit (table : List YamlPrototype) (path : String)
    (parsed : List YamlPrototype) : List YamlPrototype :=
  saveCommit yamlEq (fun p => p.index.path) table path parsed

/-- The `"cs"` arm of `Backend::did_save` on the class table. -/
def didSaveCsharpCommit (table : List CsharpObject) (path : String)
    (parsed : List CsharpObject) : List CsharpObject :=
  saveCommit csharpEq (fun c => c.index.path) table path parsed

/-- Model of `backend::Context`: the three symbol tables (the parsed-file map
is not needed by the index claims). -/
structure Context where
  classes : List CsharpObject
  prototypes : List YamlPrototype
  locales : List FluentKey

/-- Model of `Backend::did_save` on a `.yml`/`.yaml` file whose parse result is
`result` (`none` models the parse-failure arm, which leaves every
table untouched). -/
def did_save_yml (ctx : Context) (path : String)
    (result : Option (List YamlPrototype)) : Context :=
  match result with
  | some parsed => { ctx with prototypes := didSaveYamlCommit ctx.prototypes path parsed }
  | none => ctx

/-! ## Tree-sitter nodes

The embedding of the tree-sitter API surface the code reads: node
kind, the node's source text (`Node::utf8_text`, stored directly), its
source range, the ordered child list (each child tagged with its
named-ness, so that both `child(i)` and `named_child(i)` exist) and
the field-name links (`child_by_field_name`). -/

inductive TSNode where
  | mk (kind : String) (text : String) (range : TSRange)
      (children : List (Bool × TSNode))
      (fields : List (String × TSNode)) : TSNode

namespace TSNode

def kind : TSNode → String
  | .mk k _ _ _ _ => k

def text : TSNode → String
  | .mk _ t _ _ _ => t

def range : TSNode → TSRange
  | .mk _ _ r _ _ => r

def children : TSNode → List TSNode
  | .mk _ _ _ cs _ => cs.map (·.2)

/-- Model of `Node::named_children` (the children reached by `named_child(i)`
for `i < named_child_count()`). -/
def namedChildren : TSNode → List TSNode
  | .mk _ _ _ cs _ => (cs.filter (·.1)).map (·.2)

/-- Model of `Node::child_by_field_name`. -/
def childByFieldName (n : TSNode) (name : String) : Option TSNode :=
  match n with
  | .mk _ _ _ _ fs => (fs.find? fun f => f.1 == name).map (·.2)

end TSNode

/-! ## The YAML prototype parser (`src/parse/yaml.rs`)

The tree-sitter parse itself is an external collaborator; the
embedding starts from the resulting syntax tree (`root`).  The
`parents` collected by the loop are stored in the record (the
revision's `YamlPrototype::new` takes them). -/

/-- Model of `find_child_node`: the first named child of the given kind. -/
def find_child_node (node : TSNode) (name : String) : Option TSNode :=
  node.namedChildren.find? fun c => c.kind == name

/-- Model of `get_block_sequence_node`: `document` → `block_node` →
`block_sequence` under the root. -/
def get_block_sequence_node (root : TSNode) : Option TSNode :=
  (find_child_node root "document").bind fun document =>
    (find_child_node document "block_node").bind fun block_node =>
      find_child_node block_node "block_sequence"

/-- Model of `get_block_mapping`: first named child of the item, then its first
named child, which must be a `block_mapping`. -/
def get_block_mapping (block_sequence_item_node : TSNode) : Option TSNode :=
  block_sequence_item_node.namedChildren.head?.bind fun block_node =>
    block_node.namedChildren.head?.bind fun block_mapping_node =>
      if block_mapping_node.kind = "block_mapping" then some block_mapping_node
      else none

/-- The `"parent"` arm of the key dispatch in `get_yaml_prototype`:
the parent ids contributed by one `parent:` value node. -/
def yamlParentsOf (value_node : TSNode) : List String :=
  if value_node.kind = "block_node" ∨ value_node.kind = "flow_node" then
    match value_node.namedChildren.head? with
    | none => []
    | some sequence_node =>
      if sequence_node.kind = "flow_sequence" ∨ sequence_node.kind = "block_sequence" then
        sequence_node.namedChildren.filterMap fun item =>
          item.namedChildren.head?.map (·.text)
      else [sequence_node.text]
  else []

/-- The mutable state of the mapping-pair loop in
`get_yaml_prototype`: `(prototype, id, id_range, parents)`. -/
structure YamlProtoState where
  prototype : Option String
  id : Option String
  id_range : Option TSRange
  parents : List String

/-- One iteration of the mapping-pair loop: pairs without a `key` or a
`value` field are skipped, then the key text is dispatched. -/
def yamlProtoStep (st : YamlProtoState) (pair : TSNode) : YamlProtoState :=
  match pair.childByFieldName "key" with
  | none => st
  | some key_node =>
    match pair.childByFieldName "value" with
    | none => st
    | some value_node =>
      if key_node.text = "type" then { st with prototype := some value_node.text }
      else if key_node.text = "id" then
        { st with id := some value_node.text, id_range := some value_node.range }
      else if key_node.text = "parent" then
        { st with parents := st.parents ++ yamlParentsOf value_node }
      else st

/-- Model of `get_yaml_prototype`: extract one prototype record from a
`block_sequence_item`, or `none` when the item has no block mapping or
the mapping never sets both `type` and `id`. -/
def get_yaml_prototype (block_sequence_item_node : TSNode) (path : String) :
    Option YamlPrototype :=
  match get_block_mapping block_sequence_item_node with
  | none => none
  | some block_mapping_node =>
    let st := block_mapping_node.namedChildren.foldl yamlProtoStep
      ⟨none, none, none, []⟩
    match st.prototype, st.id with
    | some prototype, some id =>
      some ⟨prototype, id, st.parents, ⟨path, st.id_range⟩⟩
    | _, _ => none

/-- The body of `yaml::p` from the parsed tree on: find the top-level
block sequence (else fail), re-check its kind (a check that can never
fire), and extract a record from each sequence item, skipping items
that yield none. -/
def yamlParse (root : TSNode) (path : String) : Except Unit (List YamlPrototype) :=
  match get_block_sequence_node root with
  | some block_sequence_node =>
    if block_sequence_node.kind ≠ "block_sequence" then .error ()
    else .ok (block_sequence_node.namedChildren.filterMap
      fun item => get_yaml_prototype item path)
  | none => .error ()

/-! ## Edit router: `Backend::did_open`

The URL→path conversion and the file read are external; they enter the
model as the `path` and `content` arguments.  The rope is modelled by
the text it holds; the tree type is a parameter. -/

/-- Model of `OpenedFile { rope, tree }`. -/
structure OpenedFile (τ : Type) where
  rope : String
  tree : τ

/-- Model of `HashMap::insert` on an association-list map: replace any existing
binding of the key. -/
def mapInsert {κ ν : Type} [BEq κ] (l : List (κ × ν)) (k : κ) (v : ν) :
    List (κ × ν) :=
  (k, v) :: l.eraseP fun e => e.1 == k

/-- Model of `Backend::did_open`: look up the cached tree for the file's path
in the parsed-file map; if one exists, wrap the file's contents in a
new rope and attach `{rope, tree}` as the open buffer for `uri`;
otherwise ("File can't be cached") leave the open-buffer map alone. -/
def did_open {τ : Type} (parsed_files : List (String × τ))
    (opened_files : List (String × OpenedFile τ))
    (uri path content : String) : List (String × OpenedFile τ) :=
  match parsed_files.lookup path with
  | some tree => mapInsert opened_files uri ⟨content, tree⟩
  | none => opened_files

/-! ## Localization semantic tokens (`src/semantic/fluent.rs`) -/

/-- Model of `AbsoluteToken { range, token_type }`; the token type is its
`u32` discriminant (`enumMember = 0` … `parameter = 7`). -/
structure AbsoluteToken where
  range : TSRange
  tokenType : Nat

/-- Model of `lsp_types::SemanticToken`. -/
structure SemanticToken where
  deltaLine : Nat
  deltaStart : Nat
  length : Nat
  tokenType : Nat
  tokenModifiersBitset : Nat
deriving DecidableEq

/-- The sort order used by `to_relative_semantic_tokens`:
`(start row, start column)` lexicographically. -/
def tokenLe (a b : AbsoluteToken) : Prop :=
  a.range.startRow < b.range.startRow ∨
    (a.range.startRow = b.range.startRow ∧ a.range.startCol ≤ b.range.startCol)

instance : DecidableRel tokenLe := fun a b => by
  unfold tokenLe; infer_instance

instance : IsTotal AbsoluteToken tokenLe :=
  ⟨fun a b => by unfold tokenLe; omega⟩

instance : IsTrans AbsoluteToken tokenLe :=
  ⟨fun a b c hab hbc => by unfold tokenLe at *; omega⟩

/-- The delta-encoding loop of `to_relative_semantic_tokens` (the
`for` loop with `prev_line`/`prev_col`).  The casts `as u32` and the
`u32` subtractions are modelled by `u32`/`u32sub`. -/
def toRelativeLoop (prev_line prev_col : Nat) :
    List AbsoluteToken → List SemanticToken
  | [] => []
  | t :: ts =>
    let line := u32 t.range.startRow
    let col := u32 t.range.startCol
    let length := u32 (t.range.endByte - t.range.startByte)
    let delta_line := u32sub line prev_line
    let delta_start := if 0 < delta_line then col else u32sub col prev_col
    ⟨delta_line, delta_start, length, t.tokenType, 0⟩ :: toRelativeLoop line col ts

/-- Model of `to_relative_semantic_tokens`: stable-sort by `(row, column)`
(Rust's `sort_by` is a stable sort; the model uses insertion sort,
which is stable), then delta-encode from `(0, 0)`. -/
def to_relative_semantic_tokens (tokens : List AbsoluteToken) : List SemanticToken :=
  toRelativeLoop 0 0 (tokens.insertionSort tokenLe)

/-- Decoding one step of the LSP delta stream back to absolute
positions (the protocol's decoding rule, used to state the round-trip
claim). -/
def decodeSemanticLoop (prev_line prev_col : Nat) :
    List SemanticToken → List (Nat × Nat × Nat × Nat)
  | [] => []
  | s :: ss =>
    let line := prev_line + s.deltaLine
    let col := if 0 < s.deltaLine then s.deltaStart else prev_col + s.deltaStart
    (line, col, s.length, s.tokenType) :: decodeSemanticLoop line col ss

/-- The absolute `(line, column, length, type)` view of a token. -/
def absQuad (t : AbsoluteToken) : Nat × Nat × Nat × Nat :=
  (t.range.startRow, t.range.startCol,
    t.range.endByte - t.range.startByte, t.tokenType)

/-! ## `utils::get_columns` (the completion search window) -/

/-- Model of `lsp_types::Position`. -/
structure Position where
  line : Nat
  character : Nat
deriving DecidableEq

/-- The first `while let Some(_) = c.next_back()` loop of
`get_columns`: the iterator state is the index window `[f, b)` over
the line's characters plus the running column `scol`; returns
`(f, b, scol)` on exit.  Structural recursion on `b` (the loop
consumes one character from the back per iteration). -/
def gcPhase1 (f pos : Nat) : Nat → Nat → Nat × Nat × Nat
  | 0, scol => (f, 0, scol)
  | b + 1, scol =>
    if b + 1 ≤ f then (f, b + 1, scol)
    else
      let scol' := scol - 1
      if scol' = pos then (f, b, scol')
      else if scol' < pos then
        (if f < b then (f + 1, b, scol' + 1) else (f, b, scol' + 1))
      else gcPhase1 f pos b scol'

/-- The second `while let Some(ch) = chars.next_back()` loop of
`get_columns`: scan backwards over `[f, b)` tracking `scol`, `ecol`
and the `text` flag; returns `(scol, ecol)` on exit. -/
def gcPhase2 (chars : List Char) (f : Nat) :
    Nat → Nat → Nat → Bool → Nat × Nat
  | 0, scol, ecol, _ => (scol, ecol)
  | b + 1, scol, ecol, text =>
    if b + 1 ≤ f then (scol, ecol)
    else
      let ch := chars.getD b ' '
      let scol' := scol - 1
      if ¬ rustIsWhitespace ch then gcPhase2 chars f b scol' ecol true
      else if text then (scol', ecol)
      else gcPhase2 chars f b scol' (ecol - 1) false

/-- Model of `utils::get_columns`: the search-column window on the cursor's
line.  The three branches mirror the source: line empty after `trim`;
line whose trim is exactly `-`; otherwise the two backward scans. -/
def get_columns (position : Position) (src : String) : Nat × Nat :=
  let line := ((rustLines src).getD position.line "").data
  let trim_str := rustTrimList line
  if trim_str.length = 0 then
    let col := if position.character = 0 then position.character
      else position.character - 1
    (col, col)
  else if trim_str.length = 1 ∧ trim_str.all (· == '-') then
    let col := (line.takeWhile (· ≠ '-')).length
    (col, col)
  else
    let n := line.length
    let (f, b, scol) := gcPhase1 0 position.character n n
    let (scol₂, ecol) := gcPhase2 line f b scol n false
    (scol₂ + 1, ecol - 1)

/-! ## YAML completion (`src/completion/yml.rs`)

Only the handlers that apply the 100-item cap are embedded (they are
the ones claim C7 is about): `field_type_completion`,
`prototype_parents_completion`, `components_completion` and
`sprite_field_type_completion`.  Tree navigation that needs the whole
tree (`Node::parent`, `Node::prev_named_sibling`) and the file system
(`exists`, `is_dir`, `read_dir`) enter as function parameters, and
`strsim::jaro_winkler` as a rational-valued parameter `jaro`. -/

/-- An LSP range, as used in `TextEdit`. -/
structure LspRange where
  startPos : Position
  endPos : Position
deriving DecidableEq

/-- Model of `lsp_types::CompletionItem`, restricted to the fields the code
sets.  A `textEdit` is a range together with the new text. -/
structure CompletionItem where
  label : String
  kind : Option Nat := none
  detail : Option String := none
  labelDetails : Option String := none
  textEdit : Option (LspRange × String) := none
  insertText : Option String := none
  sortText : Option String := none
deriving DecidableEq

/-- Model of `lsp_types::CompletionList`. -/
structure CompletionList where
  is_incomplete : Bool
  items : List CompletionItem
deriving DecidableEq

/-- Model of `lsp_types::CompletionResponse`. -/
inductive CompletionResponse where
  | array : List CompletionItem → CompletionResponse
  | list : CompletionList → CompletionResponse
deriving DecidableEq

/-- The `lsp_types::CompletionItemKind` discriminants the code uses. -/
def KIND_FIELD : Nat := 5
def KIND_CLASS : Nat := 7
def KIND_VALUE : Nat := 12
def KIND_FILE : Nat := 17
def KIND_FOLDER : Nat := 19

/-- The effect of Rust's `(diff * 100.0) as u32` on a similarity
score (toward-zero truncation, saturating at the `u32` bounds). -/
def ratKeyU32 (q : ℚ) : Nat :=
  if q ≤ 0 then 0 else min (Int.toNat ⌊q * 100⌋) (2 ^ 32 - 1)

/-- The comparison used by every `sort_by_key(|(diff, _)| (diff *
100.0) as u32)` call. -/
def simKeyLe {α : Type} (a b : ℚ × α) : Prop := ratKeyU32 a.1 ≤ ratKeyU32 b.1

instance {α : Type} : DecidableRel (@simKeyLe α) := fun a b =>
  inferInstanceAs (Decidable (_ ≤ _))

/-- The `sort_by_key` / `reverse` / `truncate(100)` ranking sequence
applied to `(score, payload)` pairs (the sort is stable, modelled by
insertion sort). -/
def rankTruncate {α : Type} (l : List (ℚ × α)) : List α :=
  (((l.insertionSort simKeyLe).reverse).take 100).map (·.2)

/-- Model of `YamlCompletion::get_object_name`: the text of the value of the
first `type` pair of a block mapping. -/
def get_object_name (node : TSNode) : Option String :=
  node.namedChildren.findSome? fun field_node =>
    match field_node.childByFieldName "key", field_node.childByFieldName "value" with
    | some key_node, some value_node =>
      if key_node.text == "type" then some value_node.text else none
    | _, _ => none

/-- Model of `YamlCompletion::get_specified_parents`. -/
def get_specified_parents (node : TSNode) : Option (List String) :=
  match node.kind with
  | "block_mapping_pair" =>
    (node.childByFieldName "value").map fun value_node => [value_node.text]
  | "flow_sequence" => some (node.namedChildren.map (·.text))
  | _ => none

/-- Model of `YamlCompletion::field_type_completion`: completion for a field
value, dispatched on the field's declared type with a trailing `?`
stripped.  Every similarity-ranked branch caps at 100; the function's
single success exit marks the response incomplete. -/
def field_type_completion (jaro : String → String → ℚ)
    (pascalCase camelCase : String → String) (ctx : Context)
    (node : TSNode) (field : CsharpClassField) : Option CompletionResponse :=
  let ty := rustTrimEndMatches field.type_name '?'
  let items? : Option (List CompletionItem) :=
    if ty == "bool" then
      some (["true", "false"].map fun value =>
        { label := value, kind := some KIND_VALUE })
    else if ty == "EntProtoId" then
      let entity_prototypes := ctx.prototypes.filter fun p => p.prototype == "entity"
      match node.childByFieldName "value" with
      | some value_node =>
        let value := value_node.text
        some (rankTruncate
          (((entity_prototypes.map fun p => (jaro value p.id, p)).filter
              fun x => (0.6 : ℚ) < x.1).map fun x =>
            (x.1, ({ label := x.2.id, kind := some KIND_CLASS,
                     detail := some "entity" } : CompletionItem))))
      | none =>
        some ((entity_prototypes.map fun p =>
          ({ label := p.id, kind := some KIND_CLASS,
             detail := some "entity" } : CompletionItem)).take 100)
    else if rustStartsWith ty "ProtoId<" then
      let inner := rustTrimEndMatches (rustTrimStartMatchesStr ty "ProtoId<") '>'
      match get_prototype_by_name pascalCase ctx.classes inner with
      | none => none
      | some prototype =>
        let prototype_name := camelCase (get_prototype_name pascalCase prototype)
        let filtered_prototypes :=
          ctx.prototypes.filter fun p => p.prototype == prototype_name
        let mkI : String → CompletionItem := fun l =>
          { label := l, kind := some KIND_CLASS, detail := some prototype_name }
        match node.childByFieldName "value" with
        | some value_node =>
          let value := value_node.text
          some (rankTruncate
            (((filtered_prototypes.map fun p => (jaro value p.id, p)).filter
                fun x => (0.6 : ℚ) < x.1).map fun x => (x.1, mkI x.2.id)))
        | none => some ((filtered_prototypes.map fun p => mkI p.id).take 100)
    else if ty == "LocId" then
      let mkI : String → Option LspRange → CompletionItem := fun key range =>
        { label := key, kind := some KIND_VALUE, detail := some "locale",
          textEdit := range.map fun r => (r, key) }
      match node.childByFieldName "value" with
      | some value_node =>
        let value := value_node.text
        some (rankTruncate
          (((ctx.locales.map fun l => (jaro value l.key, l)).filter
              fun x => (0.8 : ℚ) ≤ x.1).map fun x =>
            (x.1, mkI x.2.key (some
              ⟨⟨value_node.range.startRow, value_node.range.startCol⟩,
               ⟨value_node.range.endRow, value_node.range.endCol⟩⟩))))
      | none => some ((ctx.locales.map fun l => mkI l.key none).take 100)
    else some []
  items?.map fun items => .list ⟨true, items⟩

/-- The item-list computation of
`YamlCompletion::prototype_parents_completion`: parent-id completion
for `parent:` fields, reached from a `flow_sequence`, `flow_node` or
`block_mapping_pair` node.  `parentOf` and `prevNamedSibling` embed
the tree-sitter accessors; `none` models the function's early
`return None` exits. -/
def prototype_parents_items (jaro : String → String → ℚ)
    (parentOf prevNamedSibling : TSNode → Option TSNode)
    (position : Position) (prototypes : List YamlPrototype)
    (node : TSNode) : Option (List CompletionItem) := do
  let parent_field_name ←
    match node.kind with
    | "flow_sequence" => do
      let p ← parentOf node
      let s ← prevNamedSibling p
      pure s.text
    | "flow_node" => do
      let p1 ← parentOf node
      let p2 ← parentOf p1
      let s ← prevNamedSibling p2
      pure s.text
    | "block_mapping_pair" => do
      let k ← node.childByFieldName "key"
      pure k.text
    | _ => none
  if parent_field_name ≠ "parent" then none
  else do
    let proto_name ←
      match node.kind with
      | "flow_sequence" => do
        let p1 ← parentOf node
        let p2 ← parentOf p1
        let p3 ← parentOf p2
        get_object_name p3
      | "flow_node" => do
        let p1 ← parentOf node
        let p2 ← parentOf p1
        let p3 ← parentOf p2
        let p4 ← parentOf p3
        get_object_name p4
      | "block_mapping_pair" => do
        let p ← parentOf node
        get_object_name p
      | _ => none
    let specified_parents ←
      match node.kind with
      | "flow_sequence" => pure ((get_specified_parents node).getD [])
      | "flow_node" => do
        let p ← parentOf node
        pure ((get_specified_parents p).getD [])
      | "block_mapping_pair" => pure ([] : List String)
      | _ => none
    let filtered_prototypes :=
      (prototypes.filter fun p => p.prototype == proto_name).filter
        fun p => !(specified_parents.contains p.id)
    let mkI : String → String → Nat → Option Position → CompletionItem :=
      fun id prototype start_position end_position =>
        { label := id, kind := some KIND_CLASS, detail := some prototype,
          textEdit := some (
            ⟨⟨position.line, start_position⟩,
             (end_position.getD ⟨position.line, start_position⟩)⟩, id) }
    match node.kind with
      | "flow_sequence" => do
        let child_count := node.children.length
        -- `node.child(child_count - 2)` with usize arithmetic: out of
        -- range (via wrap-around) when fewer than two children exist.
        let last_child ← if child_count < 2 then none
          else node.children.get? (child_count - 2)
        let col ←
          match last_child.kind with
          | "," => some (last_child.range.endCol + 1)
          | "flow_node" => none
          | _ => some (node.range.startCol + 1)
        let items := filtered_prototypes.map fun p =>
          ({ label := p.id, kind := some KIND_CLASS, detail := some p.prototype,
             textEdit := some
               (⟨⟨position.line, col⟩, ⟨position.line, col⟩⟩, p.id) } : CompletionItem)
        pure ((((items.insertionSort fun a b => a.label ≤ b.label)).take 100))
      | "flow_node" => do
        let value := node.text
        pure (rankTruncate
          (((filtered_prototypes.map fun p => (jaro value p.id, p)).filter
              fun x => (0.8 : ℚ) < x.1).map fun x =>
            (x.1, mkI x.2.id x.2.prototype node.range.startCol
              (some ⟨node.range.endRow, node.range.endCol⟩))))
      | "block_mapping_pair" =>
        match node.childByFieldName "value" with
        | some value_node => do
          let value := value_node.text
          let key_node ← node.childByFieldName "key"
          pure (rankTruncate
            (((filtered_prototypes.map fun p => (jaro value p.id, p)).filter
                fun x => (0.8 : ℚ) < x.1).map fun x =>
              (x.1, mkI x.2.id x.2.prototype (key_node.range.endCol + 2)
                (some ⟨value_node.range.endRow, value_node.range.endCol⟩))))
        | none => do
          let key_node ← node.childByFieldName "key"
          pure ((filtered_prototypes.map fun p =>
            mkI p.id p.prototype (key_node.range.endCol + 2) none).take 100)
      | _ => pure []

/-- Model of `YamlCompletion::prototype_parents_completion`: the single
success exit wraps the computed items in a response marked
incomplete. -/
def prototype_parents_completion (jaro : String → String → ℚ)
    (parentOf prevNamedSibling : TSNode → Option TSNode)
    (position : Position) (prototypes : List YamlPrototype)
    (node : TSNode) : Option CompletionResponse :=
  (prototype_parents_items jaro parentOf prevNamedSibling position
    prototypes node).map fun parents => .list ⟨true, parents⟩

/-- The item-list computation of
`YamlCompletion::components_completion`: component-type completion for
`type:` keys at component nesting; requires the sixth ancestor to be a
`components` mapping pair. -/
def components_completion_items (jaro : String → String → ℚ)
    (pascalCase : String → String) (parentOf : TSNode → Option TSNode)
    (position : Position) (classes : List CsharpObject)
    (node key_node : TSNode) : Option (List CompletionItem) := do
  let n1 ← parentOf node
  let n2 ← parentOf n1
  let n3 ← parentOf n2
  let n4 ← parentOf n3
  let n5 ← parentOf n4
  let n6 ← parentOf n5
  let is_components_node ←
    if n6.kind ≠ "block_mapping_pair" then pure false
    else do
      let k ← n6.childByFieldName "key"
      pure (k.text == "components")
  if !is_components_node then none
  else
    let completions := classes.filter componentTryFrom
    let mkI : CsharpObject → CompletionItem := fun c =>
      { label := get_component_name pascalCase c, kind := some KIND_CLASS,
        labelDetails := some "Component" }
    match node.childByFieldName "value" with
    | some value_node =>
      let value := value_node.text
      let items := rankTruncate
        (((completions.map fun c =>
            (jaro value (get_component_name pascalCase c), c)).filter
            fun x => (0.8 : ℚ) < x.1).map fun x =>
          (x.1, { mkI x.2 with textEdit := some (
                    ⟨⟨position.line, key_node.range.endCol + 2⟩,
                     ⟨position.line, value_node.range.endCol⟩⟩,
                    get_component_name pascalCase x.2) }))
      pure items
    | none =>
      pure (completions.map fun c =>
        { mkI c with insertText := some (get_component_name pascalCase c) })

/-- Model of `YamlCompletion::components_completion`: the single
success exit wraps the computed items in a response marked
incomplete. -/
def components_completion (jaro : String → String → ℚ)
    (pascalCase : String → String) (parentOf : TSNode → Option TSNode)
    (position : Position) (classes : List CsharpObject)
    (node key_node : TSNode) : Option CompletionResponse :=
  (components_completion_items jaro pascalCase parentOf position classes
    node key_node).map fun items => .list ⟨true, items⟩

/-- Join path components with `/` (the effect of collecting `&str`
parts into a `PathBuf`). -/
def joinSlash (parts : List (List Char)) : String :=
  String.intercalate "/" (parts.map fun l => ⟨l⟩)

/-- Model of `YamlCompletion::sprite_field_type_completion`: sprite-path
completion; directory contents enter through `readDir` (entry name and
whether the entry is a directory), existence tests through
`pathExists`/`pathIsDir`. -/
def sprite_field_paths (jaro : String → String → ℚ)
    (pathExists pathIsDir : String → Bool)
    (readDir : String → Option (List (String × Bool)))
    (root_path : String) (node : TSNode) : Option (List CompletionItem) :=
  let sprites_folder := root_path ++ "Resources/Textures/"
  if ¬ pathExists sprites_folder then none
  else
    (match node.childByFieldName "value" with
      | some value_node =>
        let value := value_node.text
        if rustEndsWith value "/" then
          let path := sprites_folder ++ value
          if ¬ pathExists path ∨ ¬ pathIsDir path then none
          else
            match ((splitOnCharList '/' value.data).filter (· ≠ [])).getLast? with
            | none => none
            | some lastL =>
              if rustEndsWith (String.mk lastL) ".rsi" then none
              else
                (readDir path).map fun entries => entries.map fun e =>
                  let is_rsi := rustEndsWith e.1 ".rsi"
                  { label := e.1,
                    kind := some (if is_rsi then KIND_FILE else KIND_FOLDER),
                    insertText := some (if is_rsi then e.1 else e.1 ++ "/") }
        else
          let parts := (splitOnCharList '/' value.data).filter (· ≠ [])
          match parts.getLast? with
          | none => none
          | some lastL =>
            let last := String.mk lastL
            if rustEndsWith last ".rsi" then none
            else
              let sprites_path := if parts.length = 1 then sprites_folder
                else sprites_folder ++ joinSlash parts.dropLast
              if ¬ pathExists sprites_path ∨ ¬ pathIsDir sprites_path then none
              else
                (readDir sprites_path).map fun entries =>
                  rankTruncate
                    (((entries.map fun e => (jaro last e.1, e.1)).filter
                        fun x => (0.6 : ℚ) < x.1).map fun x =>
                      let is_rsi := rustEndsWith x.2 ".rsi"
                      (x.1, ({ label := x.2,
                               kind := some (if is_rsi then KIND_FILE else KIND_FOLDER),
                               insertText := some (if is_rsi then x.2 else x.2 ++ "/") } :
                              CompletionItem)))
      | none =>
        (readDir sprites_folder).map fun entries => entries.map fun e =>
          if rustEndsWith e.1 ".rsi" then
            { label := e.1, kind := some KIND_FILE,
              insertText := some (e.1 ++ "/") }
          else
            { label := e.1,
              kind := some (if e.2 then KIND_FOLDER else KIND_FILE),
              insertText := some (e.1 ++ "/") })

/-- Model of `YamlCompletion::sprite_field_type_completion`: the single
success exit returns the computed item list in a response marked
incomplete; an empty list yields no response. -/
def sprite_field_type_completion (jaro : String → String → ℚ)
    (pathExists pathIsDir : String → Bool)
    (readDir : String → Option (List (String × Bool)))
    (root_path : String) (node : TSNode) : Option CompletionResponse :=
  (sprite_field_paths jaro pathExists pathIsDir readDir root_path node).bind
    fun paths =>
      if paths ≠ [] then some (.list ⟨true, paths⟩) else none

/-! ## Specification-side definitions and sample inputs -/

/-- The field aggregation exactly as §4.3 of the specification words
it: for each base name in declaration order, the field list of the
class-table record keyed by that name (missing bases contribute
nothing), followed by the class's own fields. -/
def fieldsSpec (classes : List CsharpObject) (c : CsharpObject) : List CsharpClassField :=
  ((c.base.map fun b =>
    match classes.find? fun k => k.name == b with
    | some k => k.fields
    | none => []).flatten) ++ c.fields

/-- A registered component class, used to instantiate theorems. -/
def sampleComponent : CsharpObject :=
  { name := "SpriteComponent", base := ["Component"],
    attributes := [⟨"RegisterComponent", []⟩], fields := [],
    modifiers := [], index := ⟨"B.cs", none⟩ }

/-- A `DataField` attribute argument holding the tag string `"id"`
(quotes included, as the C# parser stores them). -/
def sampleTagArg : CsharpAttributeArgument := ⟨0, "tag", .stringV "\"id\""⟩

/-- A `DataField("id")` attribute. -/
def sampleTagAttr : CsharpAttribute := ⟨"DataField", [("tag", sampleTagArg)]⟩

/-- A field carrying `DataField("id")`. -/
def sampleTagField : CsharpClassField :=
  { name := "ID", type_name := "string", attributes := [sampleTagAttr],
    modifiers := [], index := ⟨"C.cs", none⟩ }

/-- The previously stored record of class `Foo` (field `capacity`). -/
def staleOldClass : CsharpObject :=
  { name := "Foo", base := [], attributes := [],
    fields := [{ name := "capacity", type_name := "int", attributes := [],
                 modifiers := [], index := ⟨"F.cs", none⟩ }],
    modifiers := [], index := ⟨"F.cs", none⟩ }

/-- The record of class `Foo` parsed from the freshly saved file
(field `radius` instead of `capacity`). -/
def staleNewClass : CsharpObject :=
  { name := "Foo", base := [], attributes := [],
    fields := [{ name := "radius", type_name := "float", attributes := [],
                 modifiers := [], index := ⟨"F.cs", none⟩ }],
    modifiers := [], index := ⟨"F.cs", none⟩ }

/-- An all-zero source range, for sample trees. -/
def rng0 : TSRange := ⟨0, 0, 0, 0, 0, 0⟩

/-- A childless node. -/
def sampleLeaf (kind text : String) : TSNode := .mk kind text rng0 [] []

/-- A `block_mapping_pair` with `key`/`value` fields. -/
def samplePair (key value : String) : TSNode :=
  .mk "block_mapping_pair" "" rng0 []
    [("key", sampleLeaf "flow_node" key), ("value", sampleLeaf "flow_node" value)]

/-- A sequence item holding `- type: entity\n  id: Human`. -/
def sampleItem : TSNode :=
  .mk "block_sequence_item" "" rng0
    [(true, .mk "block_node" "" rng0
      [(true, .mk "block_mapping" "" rng0
        [(true, samplePair "type" "entity"), (true, samplePair "id" "Human")] [])]
      [])]
    []

/-- A sequence item whose mapping has no pairs at all. -/
def emptyMappingItem : TSNode :=
  .mk "block_sequence_item" "" rng0
    [(true, .mk "block_node" "" rng0
      [(true, .mk "block_mapping" "" rng0 [] [])] [])]
    []

/-- A top-level block sequence holding the two items above. -/
def sampleSeq : TSNode :=
  .mk "block_sequence" "" rng0 [(true, sampleItem), (true, emptyMappingItem)] []

/-- A parsed YAML document root over `sampleSeq`. -/
def sampleRoot : TSNode :=
  .mk "stream" "" rng0
    [(true, .mk "document" "" rng0
      [(true, .mk "block_node" "" rng0 [(true, sampleSeq)] [])] [])]
    []

/-- A constant similarity metric, for instantiating theorems. -/
def jaro0 : String → String → ℚ := fun _ _ => 0

/-- An empty symbol index. -/
def ctx0 : Context := ⟨[], [], []⟩

/-- A field of declared type `bool`. -/
def boolField : CsharpClassField :=
  { name := "enabled", type_name := "bool", attributes := [],
    modifiers := [], index := ⟨"F.cs", none⟩ }

/-- A `parent:` mapping pair that has no value yet. -/
def parentPairNode : TSNode :=
  .mk "block_mapping_pair" "" rng0 [] [("key", sampleLeaf "flow_node" "parent")]

/-- The mapping enclosing `parentPairNode`, declaring `type: ent`. -/
def parentsMappingNode : TSNode :=
  .mk "block_mapping" "" rng0 [(true, samplePair "type" "ent")] []

/-- A `components:` mapping pair, serving as the sixth ancestor in the
component-completion walk. -/
def componentsPairNode : TSNode :=
  .mk "block_mapping_pair" "" rng0 []
    [("key", sampleLeaf "flow_node" "components")]

/-! ## Helper lemmas -/

theorem u32_eq_of_lt {n : Nat} (h : n < 2 ^ 32) : u32 n = n := Nat.mod_eq_of_lt h

theorem u32sub_eq_sub {a b : Nat} (ha : a < 2 ^ 32) (hba : b ≤ a) :
    u32sub a b = a - b := by
  unfold u32sub
  have h1 : a + 2 ^ 32 - b = (a - b) + 2 ^ 32 := by omega
  rw [h1, Nat.add_mod_right, Nat.mod_eq_of_lt (by omega)]

theorem foldl_append_fields (bs : List CsharpObject) (acc : List CsharpClassField) :
    bs.foldl (fun fields b => fields ++ b.fields) acc
      = acc ++ (bs.map (·.fields)).flatten := by
  induction bs generalizing acc with
  | nil => simp
  | cons b bs ih => simp [ih]

theorem flatten_filterMap_id (os : List (Option CsharpObject)) :
    ((os.filterMap id).map (·.fields)).flatten
      = (os.map fun o =>
          match o with
          | some k => k.fields
          | none => []).flatten := by
  induction os with
  | nil => rfl
  | cons o os ih => cases o <;> simp [ih]

/-! ## C4: reflection field aggregation -/

/-- C4.  For every class record `C`, `get_fields` returns the
concatenation of, for each base name `b` in `C.base` in declaration
order, the field list of the class-table record named `b` (base names
with no record are skipped silently), followed by `C`'s own fields;
duplicates are retained.  Stated as equality with the
specification-side aggregation `fieldsSpec`. -/
theorem C4_get_fields_follows_spec (classes : List CsharpObject) (c : CsharpObject) :
    get_fields classes c = fieldsSpec classes c := by
  unfold get_fields fieldsSpec
  rw [foldl_append_fields]
  simp only [List.nil_append, List.map_append, List.flatten_append,
    List.map_cons, List.map_nil, List.flatten_cons, List.flatten_nil,
    List.append_nil]
  rw [flatten_filterMap_id, List.map_map]
  rfl

/-! ## C5: component resolution -/

/-- C5 counterexample.  `Component::try_from` succeeds on a class that
has the `IComponent` marker base but does NOT carry the
`RegisterComponent` attribute (the `&&` in the source binds tighter
than the `||`), refuting "try_from succeeds iff it both carries
RegisterComponent and has a component marker base". -/
theorem C5_counterexample :
    componentTryFrom
      { name := "FooComponent", base := ["IComponent"], attributes := [],
        fields := [], modifiers := [], index := ⟨"A.cs", none⟩ } = true ∧
    attrsContains
      ({ name := "FooComponent", base := ["IComponent"], attributes := [],
         fields := [], modifiers := [], index := ⟨"A.cs", none⟩ } :
        CsharpObject).attributes "RegisterComponent" = false :=
  ⟨rfl, rfl⟩

/-- C5 (amended).  `get_component_by_name` classifies `C` as the
component for `name` iff (`C.name == name` or `C.name ==
name + "Component"`), `C` carries `RegisterComponent`, and `C.base`
contains a component marker (`"Component"` or `"IComponent"`); and
`Component::try_from` succeeds iff (`RegisterComponent` and base
`"Component"`) or base `"IComponent"`. -/
theorem C5_component_resolution :
    (∀ (classes : List CsharpObject) (name : String) (c : CsharpObject),
       get_component_by_name classes name = some c →
       (c.name = name ∨ c.name = name ++ "Component") ∧
       attrsContains c.attributes "RegisterComponent" = true ∧
       (c.base.contains "Component" = true ∨ c.base.contains "IComponent" = true)) ∧
    (∀ (classes : List CsharpObject) (name : String),
       (∃ c ∈ classes,
         ((c.name == name || c.name == name ++ "Component")
           && attrsContains c.attributes "RegisterComponent"
           && (c.base.contains "Component" || c.base.contains "IComponent")) = true) →
       (get_component_by_name classes name).isSome = true) ∧
    (∀ c : CsharpObject, componentTryFrom c = true ↔
       ((attrsContains c.attributes "RegisterComponent" = true ∧
         c.base.contains "Component" = true)
         ∨ c.base.contains "IComponent" = true)) := by
  refine ⟨?_, ?_, ?_⟩
  · intro classes name c h
    unfold get_component_by_name at h
    cases hf : classes.find? fun c =>
        (c.name == name || c.name == name ++ "Component")
          && attrsContains c.attributes "RegisterComponent"
          && (c.base.contains "Component" || c.base.contains "IComponent") with
    | none => rw [hf] at h; simp at h
    | some c' =>
      rw [hf] at h
      have hp := List.find?_some hf
      simp only [Option.some_bind] at h
      split at h
      · injection h with h2
        subst h2
        simp only [Bool.and_eq_true, Bool.or_eq_true, beq_iff_eq] at hp
        exact ⟨hp.1.1, hp.1.2, hp.2⟩
      · exact absurd h (by simp)
  · intro classes name hex
    unfold get_component_by_name
    have : (classes.find? fun c =>
        (c.name == name || c.name == name ++ "Component")
          && attrsContains c.attributes "RegisterComponent"
          && (c.base.contains "Component" || c.base.contains "IComponent")).isSome
        = true := List.find?_isSome.mpr hex
    obtain ⟨c', hc'⟩ := Option.isSome_iff_exists.mp this
    rw [hc']
    have hp := List.find?_some hc'
    simp only [Bool.and_eq_true, Bool.or_eq_true, beq_iff_eq] at hp
    have htf : componentTryFrom c' = true := by
      unfold componentTryFrom
      simp only [Bool.or_eq_true, Bool.and_eq_true]
      rcases hp.2 with h2 | h2
      · exact Or.inl ⟨hp.1.2, h2⟩
      · exact Or.inr h2
    simp [htf]
  · intro c
    unfold componentTryFrom
    simp [Bool.and_eq_true, Bool.or_eq_true]

/-- C5 witness: the amended classification applied to a concrete
class table resolving `"Sprite"` to `SpriteComponent`. -/
theorem C5_component_resolution_witness :
    (sampleComponent.name = "Sprite" ∨
      sampleComponent.name = "Sprite" ++ "Component") ∧
    attrsContains sampleComponent.attributes "RegisterComponent" = true ∧
    (sampleComponent.base.contains "Component" = true ∨
      sampleComponent.base.contains "IComponent" = true) :=
  C5_component_resolution.1 [sampleComponent] "Sprite" sampleComponent rfl

/-! ## C3: derived data-field names -/

/-- C3 counterexample.  A field that carries a `DataField` attribute
WITHOUT a string `tag` argument together with `IncludeDataField` on a
sprite-specifier type: the claim requires the derived name `"sprite"`
(its first condition fails, its second holds), but the code's
`else if` never tests `IncludeDataField` when `DataField` is present,
so the lower-camel-cased identifier is returned instead. -/
theorem C3_counterexample :
    attrsGet ([⟨"DataField", []⟩, ⟨"IncludeDataField", []⟩] :
        List CsharpAttribute) "DataField" = some ⟨"DataField", []⟩ ∧
    argsGet ([] : List (String × CsharpAttributeArgument)) "tag" = none ∧
    attrsContains ([⟨"DataField", []⟩, ⟨"IncludeDataField", []⟩] :
        List CsharpAttribute) "IncludeDataField" = true ∧
    rustTrimEndMatches "SpriteSpecifier" '?' = "SpriteSpecifier" ∧
    get_data_field_name (fun s => s)
      { name := "icon", type_name := "SpriteSpecifier",
        attributes := [⟨"DataField", []⟩, ⟨"IncludeDataField", []⟩],
        modifiers := [], index := ⟨"C.cs", none⟩ } = "icon" ∧
    ("icon" : String) ≠ "sprite" :=
  ⟨rfl, rfl, rfl, rfl, rfl, by decide⟩

/-- C3 (amended).  The derived data-field name is: the `tag` string of
the `DataField` attribute with surrounding quotes stripped when that
attribute is present with a string `tag`; the lower-camel-case of the
identifier when `DataField` is present without a string `tag`;
`"sprite"` when `DataField` is absent, `IncludeDataField` is present
and the type (trailing `?` stripped) is a sprite-specifier name; and
the lower-camel-case of the identifier otherwise. -/
theorem C3_data_field_name (camelCase : String → String) (f : CsharpClassField) :
    (∀ attr arg tag, attrsGet f.attributes "DataField" = some attr →
       argsGet attr.arguments "tag" = some arg →
       arg.value = .stringV tag →
       get_data_field_name camelCase f = rustTrimMatches tag '"') ∧
    (∀ attr, attrsGet f.attributes "DataField" = some attr →
       (∀ tag, (argsGet attr.arguments "tag").map (·.value) ≠ some (.stringV tag)) →
       get_data_field_name camelCase f = camelCase f.name) ∧
    (attrsGet f.attributes "DataField" = none →
       attrsContains f.attributes "IncludeDataField" = true →
       (rustTrimEndMatches f.type_name '?' = "SpriteSpecifier.Rsi" ∨
        rustTrimEndMatches f.type_name '?' = "SpriteSpecifier") →
       get_data_field_name camelCase f = "sprite") ∧
    (attrsGet f.attributes "DataField" = none →
       attrsContains f.attributes "IncludeDataField" = true →
       rustTrimEndMatches f.type_name '?' ≠ "SpriteSpecifier.Rsi" →
       rustTrimEndMatches f.type_name '?' ≠ "SpriteSpecifier" →
       get_data_field_name camelCase f = camelCase f.name) ∧
    (attrsGet f.attributes "DataField" = none →
       attrsContains f.attributes "IncludeDataField" = false →
       get_data_field_name camelCase f = camelCase f.name) := by
  refine ⟨?_, ?_, ?_, ?_, ?_⟩
  · intro attr arg tag h1 h2 h3
    simp [get_data_field_name, h1, h2, h3]
  · intro attr h1 h2
    simp only [get_data_field_name, h1]
    cases h2' : argsGet attr.arguments "tag" with
    | none => simp
    | some arg =>
      cases h3 : arg.value <;> simp_all
  · intro h1 h2 h3
    rcases h3 with h3 | h3 <;>
      simp [get_data_field_name, h1, h2, h3]
  · intro h1 h2 h3 h4
    simp only [get_data_field_name, h1, h2, if_true]
    have hb1 : (rustTrimEndMatches f.type_name '?' == "SpriteSpecifier.Rsi") = false := by
      simpa using h3
    have hb2 : (rustTrimEndMatches f.type_name '?' == "SpriteSpecifier") = false := by
      simpa using h4
    simp [hb1, hb2]
  · intro h1 h2
    simp [get_data_field_name, h1, h2]

/-- C3 witness: the amended rule applied to a concrete field carrying
`DataField("id")`. -/
theorem C3_data_field_name_witness :
    get_data_field_name (fun s => s) sampleTagField = "id" := by
  have h := (C3_data_field_name (fun s => s) sampleTagField).1
    sampleTagAttr sampleTagArg "\"id\"" rfl rfl rfl
  simpa [rustTrimMatches, trimMatchesList] using h

/-! ## C2: overwrite-on-insert is violated by the save commit -/

/-- C2 (code bug).  Evaluating the `"cs"` save commit at a file that
still declares class `Foo` with changed fields: `HashSet::insert` is a
no-op on an identity collision, so the table keeps the previously
stored record — the stale `capacity` field — instead of the newly
parsed `radius` field. -/
theorem C2_save_keeps_stale_class_record :
    didSaveCsharpCommit [staleOldClass] "F.cs" [staleNewClass] = [staleOldClass] ∧
    staleOldClass.fields.map (·.name) = ["capacity"] ∧
    staleNewClass.fields.map (·.name) = ["radius"] :=
  ⟨rfl, rfl, rfl⟩

/-! ## C1: differential prototype-table replacement on save -/

theorem yamlEq_refl (a : YamlPrototype) : yamlEq a a = true := by simp [yamlEq]

theorem yamlEq_symm {a b : YamlPrototype} (h : yamlEq a b = true) :
    yamlEq b a = true := by
  simp only [yamlEq, Bool.and_eq_true, beq_iff_eq] at *
  exact ⟨h.1.symm, h.2.symm⟩

theorem yamlEq_trans {a b c : YamlPrototype} (h1 : yamlEq a b = true)
    (h2 : yamlEq b c = true) : yamlEq a c = true := by
  simp only [yamlEq, Bool.and_eq_true, beq_iff_eq] at *
  exact ⟨h1.1.trans h2.1, h1.2.trans h2.2⟩

theorem yamlEq_false_symm {a b : YamlPrototype} (h : yamlEq a b = false) :
    yamlEq b a = false := by
  cases hba : yamlEq b a with
  | false => rfl
  | true => rw [yamlEq_symm hba] at h; exact absurd h (by simp)

theorem mem_hsInsert {x q : YamlPrototype} {t : List YamlPrototype}
    (h : x ∈ hsInsert yamlEq t q) : x ∈ t ∨ x = q := by
  unfold hsInsert at h
  split at h
  · exact Or.inl h
  · rcases List.mem_append.mp h with h' | h'
    · exact Or.inl h'
    · exact Or.inr (List.mem_singleton.mp h')

theorem mem_hsInsert_of_mem {x q : YamlPrototype} {t : List YamlPrototype}
    (h : x ∈ t) : x ∈ hsInsert yamlEq t q := by
  unfold hsInsert
  split
  · exact h
  · exact List.mem_append.mpr (Or.inl h)

theorem idmem_hsInsert (q : YamlPrototype) (t : List YamlPrototype) :
    ∃ r ∈ hsInsert yamlEq t q, yamlEq r q = true := by
  unfold hsInsert
  split
  · next hany => exact List.any_eq_true.mp hany
  · exact ⟨q, List.mem_append.mpr (Or.inr (List.mem_singleton.mpr rfl)), yamlEq_refl q⟩

theorem nodup_hsInsert {t : List YamlPrototype}
    (hn : t.Pairwise fun a b => yamlEq a b = false) (q : YamlPrototype) :
    (hsInsert yamlEq t q).Pairwise fun a b => yamlEq a b = false := by
  unfold hsInsert
  split
  · exact hn
  · next hany =>
    rw [List.pairwise_append]
    refine ⟨hn, List.pairwise_singleton _ _, ?_⟩
    intro a ha b hb
    rw [List.mem_singleton] at hb
    subst hb
    simp only [List.any_eq_true, not_exists] at hany
    cases hq : yamlEq a b with
    | false => rfl
    | true => exact absurd ⟨ha, hq⟩ (hany a)

theorem mem_foldl_insert {x : YamlPrototype} :
    ∀ (P t : List YamlPrototype),
      x ∈ P.foldl (fun acc q => hsInsert yamlEq acc q) t → x ∈ t ∨ x ∈ P := by
  intro P
  induction P with
  | nil => intro t h; exact Or.inl h
  | cons q P ih =>
    intro t h
    simp only [List.foldl_cons] at h
    rcases ih _ h with h' | h'
    · rcases mem_hsInsert h' with h'' | h''
      · exact Or.inl h''
      · exact Or.inr (h'' ▸ List.mem_cons_self q P)
    · exact Or.inr (List.mem_cons_of_mem q h')

theorem mem_foldl_insert_of_mem {x : YamlPrototype} :
    ∀ (P t : List YamlPrototype),
      x ∈ t → x ∈ P.foldl (fun acc q => hsInsert yamlEq acc q) t := by
  intro P
  induction P with
  | nil => intro t h; exact h
  | cons q P ih =>
    intro t h
    simp only [List.foldl_cons]
    exact ih _ (mem_hsInsert_of_mem h)

theorem exists_idmem_foldl_insert {q : YamlPrototype} :
    ∀ (P t : List YamlPrototype), q ∈ P →
      ∃ r ∈ P.foldl (fun acc q => hsInsert yamlEq acc q) t, yamlEq r q = true := by
  intro P
  induction P with
  | nil => intro t h; exact absurd h (List.not_mem_nil q)
  | cons q' P ih =>
    intro t hq
    simp only [List.foldl_cons]
    rcases List.mem_cons.mp hq with h | h
    · subst h
      obtain ⟨r, hr, hrq⟩ := idmem_hsInsert q t
      exact ⟨r, mem_foldl_insert_of_mem P _ hr, hrq⟩
    · exact ih _ h

theorem nodup_foldl_insert :
    ∀ (P t : List YamlPrototype),
      (t.Pairwise fun a b => yamlEq a b = false) →
      ((P.foldl (fun acc q => hsInsert yamlEq acc q) t).Pairwise
        fun a b => yamlEq a b = false) := by
  intro P
  induction P with
  | nil => intro t h; exact h
  | cons q P ih =>
    intro t h
    simp only [List.foldl_cons]
    exact ih _ (nodup_hsInsert h q)

theorem mem_foldl_remove {x : YamlPrototype} :
    ∀ (D l : List YamlPrototype),
      x ∈ D.foldl (fun acc d => hsRemove yamlEq acc d) l → x ∈ l := by
  intro D
  induction D with
  | nil => intro l h; exact h
  | cons d D ih =>
    intro l h
    simp only [List.foldl_cons] at h
    exact (List.eraseP_sublist l).mem (ih _ h)

theorem mem_foldl_remove_of_no_id {x : YamlPrototype} :
    ∀ (D l : List YamlPrototype), x ∈ l →
      (∀ d ∈ D, yamlEq x d = false) →
      x ∈ D.foldl (fun acc d => hsRemove yamlEq acc d) l := by
  intro D
  induction D with
  | nil => intro l h _; exact h
  | cons d D ih =>
    intro l h hno
    simp only [List.foldl_cons]
    refine ih _ ?_ fun d' hd' => hno d' (List.mem_cons_of_mem d hd')
    unfold hsRemove
    exact (List.mem_eraseP_of_neg (by simp [hno d (List.mem_cons_self d D)])).mpr h

theorem nodup_foldl_remove :
    ∀ (D l : List YamlPrototype),
      (l.Pairwise fun a b => yamlEq a b = false) →
      ((D.foldl (fun acc d => hsRemove yamlEq acc d) l).Pairwise
        fun a b => yamlEq a b = false) := by
  intro D
  induction D with
  | nil => intro l h; exact h
  | cons d D ih =>
    intro l h
    simp only [List.foldl_cons]
    exact ih _ (List.Pairwise.sublist (List.eraseP_sublist l) h)

theorem not_mem_eraseP_of_id {l : List YamlPrototype} {x d : YamlPrototype}
    (hn : l.Pairwise fun a b => yamlEq a b = false)
    (hx : x ∈ l) (hpx : yamlEq x d = true) :
    x ∉ l.eraseP fun y => yamlEq y d := by
  intro hmem
  obtain ⟨a, l₁, l₂, hl₁, hpa, hdecomp, herase⟩ :=
    List.exists_of_eraseP (p := fun y => yamlEq y d) hx hpx
  rw [herase] at hmem
  have hxl₁ : x ∉ l₁ := fun hc => hl₁ x hc hpx
  have hxl₂ : x ∈ l₂ := by
    rcases List.mem_append.mp hmem with h | h
    · exact absurd h hxl₁
    · exact h
  rw [hdecomp] at hn
  have hpair := (List.pairwise_append.mp hn).2.1
  have hax : yamlEq a x = false := (List.pairwise_cons.mp hpair).1 x hxl₂
  by_cases heq : a = x
  · subst heq
    rw [yamlEq_refl] at hax
    exact absurd hax (by simp)
  · exact absurd (yamlEq_trans hpa (yamlEq_symm hpx)) (by simp [hax])

theorem no_removed_id_in_foldl_remove :
    ∀ (D l : List YamlPrototype),
      (l.Pairwise fun a b => yamlEq a b = false) →
      ∀ x ∈ D.foldl (fun acc d => hsRemove yamlEq acc d) l,
        ∀ d ∈ D, yamlEq x d = false := by
  intro D
  induction D with
  | nil => intro l _ x _ d hd; exact absurd hd (List.not_mem_nil d)
  | cons d₀ D ih =>
    intro l hn x hx d hd
    simp only [List.foldl_cons] at hx
    have hn' : (l.eraseP fun y => yamlEq y d₀).Pairwise
        fun a b => yamlEq a b = false :=
      List.Pairwise.sublist (List.eraseP_sublist l) hn
    rcases List.mem_cons.mp hd with h | h
    · subst h
      have hx' : x ∈ l.eraseP fun y => yamlEq y d := mem_foldl_remove _ _ hx
      cases hq : yamlEq x d with
      | false => rfl
      | true =>
        exact absurd hx'
          (not_mem_eraseP_of_id hn ((List.eraseP_sublist l).mem hx') hq)
    · exact ih _ hn' x hx d h

/-- C1 counterexample.  The prototype identity `(entity, Human)` is
already stored with origin `q.yml`; saving `p.yml`, whose extraction
is exactly `[(entity, Human)]`, leaves the table unchanged
(`HashSet::insert` is a no-op on the collision), so no record with
origin `p.yml` carries the extracted identity — the claim's "every
extracted identity is present among records with origin p" fails. -/
theorem C1_counterexample :
    didSaveYamlCommit [⟨"entity", "Human", [], ⟨"q.yml", none⟩⟩] "p.yml"
        [⟨"entity", "Human", [], ⟨"p.yml", none⟩⟩]
      = [⟨"entity", "Human", [], ⟨"q.yml", none⟩⟩] ∧
    (¬ ∃ r ∈ didSaveYamlCommit [⟨"entity", "Human", [], ⟨"q.yml", none⟩⟩] "p.yml"
        [⟨"entity", "Human", [], ⟨"p.yml", none⟩⟩],
      r.index.path = "p.yml") := by
  refine ⟨rfl, ?_⟩
  intro ⟨r, hr, hrp⟩
  have : r = ⟨"entity", "Human", [], ⟨"q.yml", none⟩⟩ := by
    have h1 : didSaveYamlCommit [⟨"entity", "Human", [], ⟨"q.yml", none⟩⟩] "p.yml"
        [⟨"entity", "Human", [], ⟨"p.yml", none⟩⟩]
        = [⟨"entity", "Human", [], ⟨"q.yml", none⟩⟩] := rfl
    rw [h1] at hr
    exact List.mem_singleton.mp hr
  rw [this] at hrp
  exact absurd hrp (by decide)

/-- C1 (amended).  For a save of YAML file `p` on which the parser
succeeds, provided the table holds at most one record per
`(prototype-type, id)` identity and no extracted identity is already
stored under a different origin path, the commit leaves the prototype
table containing, among records whose origin is `p`, exactly the
extracted identities: every extracted identity is present, every
stored record with origin `p` whose identity is absent from the
extraction is gone, records with other origins are untouched, and the
class and locale tables are unchanged. -/
theorem C1_save_replaces_origin (ctx : Context) (p : String)
    (parsed : List YamlPrototype)
    (hnodup : ctx.prototypes.Pairwise fun a b => yamlEq a b = false)
    (hparsed : ∀ q ∈ parsed, q.index.path = p)
    (hnocross : ∀ r ∈ ctx.prototypes, ∀ q ∈ parsed,
      yamlEq r q = true → r.index.path = p) :
    (∀ q ∈ parsed, ∃ r ∈ (did_save_yml ctx p (some parsed)).prototypes,
      r.index.path = p ∧ yamlEq r q = true) ∧
    (∀ r ∈ (did_save_yml ctx p (some parsed)).prototypes,
      r.index.path = p → ∃ q ∈ parsed, yamlEq r q = true) ∧
    (∀ r : YamlPrototype, r.index.path ≠ p →
      (r ∈ (did_save_yml ctx p (some parsed)).prototypes ↔ r ∈ ctx.prototypes)) ∧
    (did_save_yml ctx p (some parsed)).classes = ctx.classes ∧
    (did_save_yml ctx p (some parsed)).locales = ctx.locales := by
  have hres : (did_save_yml ctx p (some parsed)).prototypes
      = didSaveYamlCommit ctx.prototypes p parsed := rfl
  set table := ctx.prototypes with htable
  set diff := table.filter fun r =>
    r.index.path == p && !(parsed.any fun q => yamlEq q r) with hdiff
  set afterInsert := parsed.foldl (fun acc q => hsInsert yamlEq acc q) table
    with hafter
  have hcommit : didSaveYamlCommit table p parsed
      = diff.foldl (fun acc d => hsRemove yamlEq acc d) afterInsert := rfl
  have hdiffmem : ∀ d ∈ diff, d ∈ table ∧ d.index.path = p ∧
      ∀ q ∈ parsed, yamlEq q d = false := by
    intro d hd
    rw [hdiff] at hd
    obtain ⟨hdt, hcond⟩ := List.mem_filter.mp hd
    simp only [Bool.and_eq_true, beq_iff_eq, Bool.not_eq_true',
      List.any_eq_false] at hcond
    exact ⟨hdt, hcond.1, fun q hq => Bool.eq_false_iff.mpr (hcond.2 q hq)⟩
  have hnodup' : afterInsert.Pairwise fun a b => yamlEq a b = false :=
    nodup_foldl_insert parsed table hnodup
  refine ⟨?_, ?_, ?_, rfl, rfl⟩
  · -- every extracted identity is present with origin p
    intro q hq
    obtain ⟨r, hr, hrq⟩ := exists_idmem_foldl_insert parsed table hq
    have hrkeep : ∀ d ∈ diff, yamlEq r d = false := by
      intro d hd
      cases hc : yamlEq r d with
      | false => rfl
      | true =>
        have hqd : yamlEq q d = true := yamlEq_trans (yamlEq_symm hrq) hc
        have := (hdiffmem d hd).2.2 q hq
        rw [hqd] at this
        exact absurd this (by simp)
    have hrres : r ∈ didSaveYamlCommit table p parsed := by
      rw [hcommit]
      exact mem_foldl_remove_of_no_id diff afterInsert hr hrkeep
    have hrpath : r.index.path = p := by
      rcases mem_foldl_insert parsed table hr with h | h
      · exact hnocross r h q hq hrq
      · exact hparsed r h
    exact ⟨r, hres ▸ hrres, hrpath, hrq⟩
  · -- stale origin-p records are gone
    intro r hr hrp
    rw [hres, hcommit] at hr
    by_contra hno
    push_neg at hno
    have hno' : ∀ q ∈ parsed, yamlEq r q = false := by
      intro q hq
      cases hc : yamlEq r q with
      | false => rfl
      | true => exact absurd hc (hno q hq)
    have hrt : r ∈ table := by
      rcases mem_foldl_insert parsed table (mem_foldl_remove diff afterInsert hr)
        with h | h
      · exact h
      · exact absurd (yamlEq_refl r) (by simp [hno' r h])
    have hrd : r ∈ diff := by
      rw [hdiff]
      refine List.mem_filter.mpr ⟨hrt, ?_⟩
      simp only [Bool.and_eq_true, beq_iff_eq, Bool.not_eq_true',
        List.any_eq_false]
      exact ⟨hrp, fun q hq => Bool.eq_false_iff.mp (yamlEq_false_symm (hno' q hq))⟩
    have := no_removed_id_in_foldl_remove diff afterInsert hnodup' r hr r hrd
    rw [yamlEq_refl] at this
    exact absurd this (by simp)
  · -- records with other origins are untouched
    intro r hrp
    constructor
    · intro hr
      rw [hres, hcommit] at hr
      rcases mem_foldl_insert parsed table (mem_foldl_remove diff afterInsert hr)
        with h | h
      · exact h
      · exact absurd (hparsed r h) hrp
    · intro hrt
      rw [hres, hcommit]
      refine mem_foldl_remove_of_no_id diff afterInsert
        (mem_foldl_insert_of_mem parsed table hrt) ?_
      intro d hd
      obtain ⟨hdt, hdp, _⟩ := hdiffmem d hd
      cases hc : yamlEq r d with
      | false => rfl
      | true =>
        have hne : r ≠ d := fun hc' => hrp (hc' ▸ hdp)
        have hsym : Symmetric fun a b : YamlPrototype => yamlEq a b = false :=
          fun a b h => yamlEq_false_symm h
        have := hnodup.forall hsym hrt hdt hne
        rw [hc] at this
        exact absurd this (by simp)

/-- C1 witness: the amended commit property applied to the S6 save
(`id: Human` changed to `id: Dwarf` in `p.yml`). -/
theorem C1_save_replaces_origin_witness :
    ∃ r ∈ (did_save_yml
        ⟨[], [⟨"entity", "Human", [], ⟨"p.yml", none⟩⟩], []⟩ "p.yml"
        (some [⟨"entity", "Dwarf", [], ⟨"p.yml", none⟩⟩])).prototypes,
      r.index.path = "p.yml" ∧
        yamlEq r ⟨"entity", "Dwarf", [], ⟨"p.yml", none⟩⟩ = true :=
  (C1_save_replaces_origin
      ⟨[], [⟨"entity", "Human", [], ⟨"p.yml", none⟩⟩], []⟩ "p.yml"
      [⟨"entity", "Dwarf", [], ⟨"p.yml", none⟩⟩]
      (List.pairwise_singleton _ _)
      (by intro q hq; rw [List.mem_singleton.mp hq])
      (by
        intro r hr q hq hrq
        rw [List.mem_singleton.mp hr, List.mem_singleton.mp hq] at hrq
        exact absurd hrq (by decide))).1
    ⟨"entity", "Dwarf", [], ⟨"p.yml", none⟩⟩ (List.mem_singleton.mpr rfl)

/-! ## C9: the open handler -/

theorem lookup_eraseP_ne {ν : Type} (k u : String) (l : List (String × ν))
    (h : u ≠ k) : (l.eraseP fun e => e.1 == k).lookup u = l.lookup u := by
  induction l with
  | nil => rfl
  | cons e l ih =>
    cases e with
    | mk k' v =>
      simp only [List.eraseP_cons]
      cases hk : (k' == k) with
      | true =>
        simp only [cond_true, List.lookup_cons]
        have hk' : k' = k := by simpa using hk
        subst hk'
        have : (u == k') = false := by simpa using h
        rw [this]
      | false =>
        simp only [cond_false, List.lookup_cons]
        cases hu : u == k' with
        | true => rfl
        | false => simpa using ih

/-- C9 counterexample.  Opening a URL whose path has no cached syntax
tree attaches NO open buffer at all (the code logs "File can't be
cached" and returns), refuting the claim that every open event
attaches `{rope, tree}` for the url. -/
theorem C9_counterexample :
    did_open ([] : List (String × Unit)) [] "file:///a.yml" "/a.yml"
        "- type: entity" = [] ∧
    ([] : List (String × Unit)).lookup "/a.yml" = none :=
  ⟨rfl, rfl⟩

/-- C9 (amended).  On open(url): when the parsed-file map holds a
cached tree for the file's path, the handler reads the contents into a
new rope and attaches `{rope, tree}` as the open buffer for the url,
leaving every other url's buffer unchanged; when no cached tree
exists, the open-buffer map is left untouched (no buffer is
attached). -/
theorem C9_did_open {τ : Type} (parsed_files : List (String × τ))
    (opened_files : List (String × OpenedFile τ)) (uri path content : String) :
    (∀ tree, parsed_files.lookup path = some tree →
      (did_open parsed_files opened_files uri path content).lookup uri
          = some ⟨content, tree⟩ ∧
        ∀ u, u ≠ uri →
          (did_open parsed_files opened_files uri path content).lookup u
            = opened_files.lookup u) ∧
    (parsed_files.lookup path = none →
      did_open parsed_files opened_files uri path content = opened_files) := by
  constructor
  · intro tree ht
    unfold did_open
    rw [ht]
    constructor
    · simp [mapInsert, List.lookup_cons]
    · intro u hu
      simp only [mapInsert]
      rw [List.lookup_cons]
      have : (u == uri) = false := by simpa using hu
      rw [this]
      exact lookup_eraseP_ne uri u opened_files hu
  · intro ht
    unfold did_open
    rw [ht]

/-- C9 witness: opening a file with a cached tree attaches the
buffer. -/
theorem C9_did_open_witness :
    (did_open [("/a.yml", ())] [] "file:///a.yml" "/a.yml"
        "- type: entity").lookup "file:///a.yml"
      = some ⟨"- type: entity", ()⟩ :=
  ((C9_did_open [("/a.yml", ())] [] "file:///a.yml" "/a.yml"
      "- type: entity").1 () rfl).1

/-! ## C10: YAML parser skip/failure behaviour -/

theorem find_child_node_kind {n : TSNode} {name : String} {c : TSNode}
    (h : find_child_node n name = some c) : c.kind = name := by
  have := List.find?_some h
  simpa using this

theorem get_block_sequence_node_kind {root seq : TSNode}
    (h : get_block_sequence_node root = some seq) :
    seq.kind = "block_sequence" := by
  unfold get_block_sequence_node at h
  obtain ⟨d, _, h2⟩ := Option.bind_eq_some.mp h
  obtain ⟨b, _, h3⟩ := Option.bind_eq_some.mp h2
  exact find_child_node_kind h3

theorem yamlProto_type_invariant : ∀ (pairs : List TSNode) (st : YamlProtoState),
    (∀ pair ∈ pairs, ∀ k, pair.childByFieldName "key" = some k → k.text ≠ "type") →
    (pairs.foldl yamlProtoStep st).prototype = st.prototype := by
  intro pairs
  induction pairs with
  | nil => intro st _; rfl
  | cons pair pairs ih =>
    intro st hk
    simp only [List.foldl_cons]
    rw [ih _ fun p hp => hk p (List.mem_cons_of_mem _ hp)]
    cases hkey : pair.childByFieldName "key" with
    | none => simp only [yamlProtoStep, hkey]
    | some k =>
      cases hval : pair.childByFieldName "value" with
      | none => simp only [yamlProtoStep, hkey, hval]
      | some v =>
        simp only [yamlProtoStep, hkey, hval]
        rw [if_neg (hk pair (List.mem_cons_self _ _) k hkey)]
        split
        · rfl
        · split <;> rfl

theorem yamlProto_id_invariant : ∀ (pairs : List TSNode) (st : YamlProtoState),
    (∀ pair ∈ pairs, ∀ k, pair.childByFieldName "key" = some k → k.text ≠ "id") →
    (pairs.foldl yamlProtoStep st).id = st.id := by
  intro pairs
  induction pairs with
  | nil => intro st _; rfl
  | cons pair pairs ih =>
    intro st hk
    simp only [List.foldl_cons]
    rw [ih _ fun p hp => hk p (List.mem_cons_of_mem _ hp)]
    cases hkey : pair.childByFieldName "key" with
    | none => simp only [yamlProtoStep, hkey]
    | some k =>
      cases hval : pair.childByFieldName "value" with
      | none => simp only [yamlProtoStep, hkey, hval]
      | some v =>
        simp only [yamlProtoStep, hkey, hval]
        by_cases h1 : k.text = "type"
        · rw [if_pos h1]
        · rw [if_neg h1, if_neg (hk pair (List.mem_cons_self _ _) k hkey)]
          split <;> rfl

/-- C10.  The YAML prototype parse (a) succeeds exactly when a
top-level `document → block_node → block_sequence` chain exists,
(b) on success extracts a record from each sequence item, silently
skipping the items that yield none, and an item yields no record when
(c) it holds no block mapping or (d) its mapping has no `type`-keyed
pair or no `id`-keyed pair. -/
theorem C10_yaml_parse_skip_and_failure :
    (∀ (root : TSNode) (path : String),
      (∃ l, yamlParse root path = .ok l) ↔
        (get_block_sequence_node root).isSome = true) ∧
    (∀ (root : TSNode) (path : String) (seq : TSNode),
      get_block_sequence_node root = some seq →
      yamlParse root path = .ok (seq.namedChildren.filterMap
        fun item => get_yaml_prototype item path)) ∧
    (∀ (item : TSNode) (path : String),
      get_block_mapping item = none → get_yaml_prototype item path = none) ∧
    (∀ (item : TSNode) (path : String) (m : TSNode),
      get_block_mapping item = some m →
      ((∀ pair ∈ m.namedChildren, ∀ k,
          pair.childByFieldName "key" = some k → k.text ≠ "type") ∨
       (∀ pair ∈ m.namedChildren, ∀ k,
          pair.childByFieldName "key" = some k → k.text ≠ "id")) →
      get_yaml_prototype item path = none) := by
  have hsucc : ∀ (root : TSNode) (path : String) (seq : TSNode),
      get_block_sequence_node root = some seq →
      yamlParse root path = .ok (seq.namedChildren.filterMap
        fun item => get_yaml_prototype item path) := by
    intro root path seq h
    unfold yamlParse
    rw [h]
    simp [get_block_sequence_node_kind h]
  refine ⟨?_, hsucc, ?_, ?_⟩
  · intro root path
    constructor
    · intro ⟨l, hl⟩
      unfold yamlParse at hl
      cases h : get_block_sequence_node root with
      | none => rw [h] at hl; exact absurd hl (by simp)
      | some seq => simp [h]
    · intro h
      obtain ⟨seq, hseq⟩ := Option.isSome_iff_exists.mp h
      exact ⟨_, hsucc root path seq hseq⟩
  · intro item path h
    unfold get_yaml_prototype
    rw [h]
  · intro item path m hm hkey
    simp only [get_yaml_prototype, hm]
    rcases hkey with hkey | hkey
    · rw [yamlProto_type_invariant m.namedChildren ⟨none, none, none, []⟩ hkey]
    · rw [yamlProto_id_invariant m.namedChildren ⟨none, none, none, []⟩ hkey]
      cases hp : (m.namedChildren.foldl yamlProtoStep
          ⟨none, none, none, []⟩).prototype <;> rfl

/-- C10 witness: the parse of a concrete document extracting
`(entity, Human)` from the well-formed item and skipping the item
whose mapping has no pairs. -/
theorem C10_yaml_parse_witness :
    yamlParse sampleRoot "p.yml" = .ok (sampleSeq.namedChildren.filterMap
      fun item => get_yaml_prototype item "p.yml") ∧
    get_yaml_prototype emptyMappingItem "p.yml" = none :=
  ⟨C10_yaml_parse_skip_and_failure.2.1 sampleRoot "p.yml" sampleSeq rfl,
   C10_yaml_parse_skip_and_failure.2.2.2 emptyMappingItem "p.yml"
     (.mk "block_mapping" "" rng0 [] []) rfl
     (Or.inl fun pair hp => absurd hp (List.not_mem_nil pair))⟩

/-! ## C6: semantic-token delta encoding round-trip -/

theorem decode_toRelativeLoop :
    ∀ (l : List AbsoluteToken) (pl pc : Nat),
      pl < 2 ^ 32 → pc < 2 ^ 32 →
      (∀ t ∈ l, t.range.startRow < 2 ^ 32 ∧ t.range.startCol < 2 ^ 32 ∧
        t.range.endByte - t.range.startByte < 2 ^ 32) →
      l.Sorted tokenLe →
      (∀ t, l.head? = some t → pl < t.range.startRow ∨
        (pl = t.range.startRow ∧ pc ≤ t.range.startCol)) →
      decodeSemanticLoop pl pc (toRelativeLoop pl pc l) = l.map absQuad := by
  intro l
  induction l with
  | nil => intro pl pc _ _ _ _ _; rfl
  | cons t ts ih =>
    intro pl pc hpl hpc hb hs hh
    obtain ⟨hrow, hcol, hlen⟩ := hb t (List.mem_cons_self t ts)
    have hht := hh t rfl
    obtain ⟨hts, hsts⟩ := List.sorted_cons.mp hs
    have hbts : ∀ t' ∈ ts, t'.range.startRow < 2 ^ 32 ∧
        t'.range.startCol < 2 ^ 32 ∧
        t'.range.endByte - t'.range.startByte < 2 ^ 32 :=
      fun t' ht' => hb t' (List.mem_cons_of_mem t ht')
    have hhts : ∀ t', ts.head? = some t' →
        t.range.startRow < t'.range.startRow ∨
          (t.range.startRow = t'.range.startRow ∧
            t.range.startCol ≤ t'.range.startCol) := by
      intro t' ht'
      exact hts t' (List.mem_of_mem_head? ht')
    have hrec := ih t.range.startRow t.range.startCol hrow hcol hbts hsts hhts
    simp only [toRelativeLoop, decodeSemanticLoop, u32_eq_of_lt hrow,
      u32_eq_of_lt hcol]
    rcases hht with hlt | ⟨heq, hle⟩
    · rw [u32sub_eq_sub hrow (le_of_lt hlt)]
      rw [if_pos (by omega), if_pos (by omega)]
      rw [show pl + (t.range.startRow - pl) = t.range.startRow from by omega]
      rw [hrec]
      simp only [List.map_cons, absQuad, u32_eq_of_lt hlen]
    · rw [heq]
      have hzero : u32sub t.range.startRow t.range.startRow = 0 := by
        rw [u32sub_eq_sub hrow (le_refl _)]
        exact Nat.sub_self _
      rw [hzero]
      rw [if_neg (by omega), if_neg (by omega)]
      rw [u32sub_eq_sub hcol hle]
      rw [Nat.add_zero]
      rw [show pc + (t.range.startCol - pc) = t.range.startCol from by omega]
      rw [hrec]
      simp only [List.map_cons, absQuad, u32_eq_of_lt hlen]

/-- C6.  For token lists within the `u32` range, decoding the delta
stream emitted by `to_relative_semantic_tokens` (first token deltas
taken from `(0,0)`; `delta_start` is the absolute column whenever
`delta_line > 0`, the column difference otherwise) reproduces the
absolute `(line, column, length, type)` tokens, stably sorted by
`(row, column)` — a permutation of the input in non-decreasing
`(line, column)` order. -/
theorem C6_semantic_tokens_roundtrip (tokens : List AbsoluteToken)
    (hb : ∀ t ∈ tokens, t.range.startRow < 2 ^ 32 ∧ t.range.startCol < 2 ^ 32 ∧
      t.range.endByte - t.range.startByte < 2 ^ 32) :
    decodeSemanticLoop 0 0 (to_relative_semantic_tokens tokens)
        = (tokens.insertionSort tokenLe).map absQuad ∧
    (tokens.insertionSort tokenLe).Perm tokens ∧
    ((tokens.insertionSort tokenLe).map absQuad).Sorted
      (fun a b : Nat × Nat × Nat × Nat =>
        a.1 < b.1 ∨ (a.1 = b.1 ∧ a.2.1 ≤ b.2.1)) := by
  have hperm := List.perm_insertionSort tokenLe tokens
  have hsorted : (tokens.insertionSort tokenLe).Sorted tokenLe :=
    List.sorted_insertionSort tokenLe tokens
  refine ⟨?_, hperm, ?_⟩
  · unfold to_relative_semantic_tokens
    apply decode_toRelativeLoop _ 0 0 (by norm_num) (by norm_num)
    · intro t ht
      exact hb t (hperm.mem_iff.mp ht)
    · exact hsorted
    · intro t _
      omega
  · exact List.Pairwise.map absQuad (fun a b h => h) hsorted

/-- C6 witness: the round-trip at two concrete unsorted tokens. -/
theorem C6_semantic_tokens_roundtrip_witness :
    decodeSemanticLoop 0 0 (to_relative_semantic_tokens
        [⟨⟨0, 5, 0, 7, 5, 7⟩, 1⟩, ⟨⟨0, 0, 0, 3, 0, 3⟩, 0⟩])
      = (([⟨⟨0, 5, 0, 7, 5, 7⟩, 1⟩, ⟨⟨0, 0, 0, 3, 0, 3⟩, 0⟩] :
          List AbsoluteToken).insertionSort tokenLe).map absQuad :=
  (C6_semantic_tokens_roundtrip
    [⟨⟨0, 5, 0, 7, 5, 7⟩, 1⟩, ⟨⟨0, 0, 0, 3, 0, 3⟩, 0⟩] (by decide)).1

/-! ## C7: capped completion responses are marked incomplete -/

/-- C7.  Every response produced by the completion handlers that apply
the 100-item cap (`field_type_completion`,
`prototype_parents_completion`, `components_completion`,
`sprite_field_type_completion`) is a `CompletionList` with
`is_incomplete` set — in particular every response whose item list was
trimmed by the cap is marked incomplete, and no code path truncates a
list into a response that is not so marked. -/
theorem C7_capped_responses_incomplete :
    (∀ (jaro : String → String → ℚ) (pas cam : String → String)
       (ctx : Context) (node : TSNode) (field : CsharpClassField)
       (r : CompletionResponse),
       field_type_completion jaro pas cam ctx node field = some r →
       ∃ items, r = .list ⟨true, items⟩) ∧
    (∀ (jaro : String → String → ℚ)
       (parentOf prevNamedSibling : TSNode → Option TSNode)
       (position : Position) (prototypes : List YamlPrototype) (node : TSNode)
       (r : CompletionResponse),
       prototype_parents_completion jaro parentOf prevNamedSibling position
         prototypes node = some r →
       ∃ items, r = .list ⟨true, items⟩) ∧
    (∀ (jaro : String → String → ℚ) (pas : String → String)
       (parentOf : TSNode → Option TSNode) (position : Position)
       (classes : List CsharpObject) (node key_node : TSNode)
       (r : CompletionResponse),
       components_completion jaro pas parentOf position classes node key_node
         = some r →
       ∃ items, r = .list ⟨true, items⟩) ∧
    (∀ (jaro : String → String → ℚ) (pathExists pathIsDir : String → Bool)
       (readDir : String → Option (List (String × Bool)))
       (root_path : String) (node : TSNode) (r : CompletionResponse),
       sprite_field_type_completion jaro pathExists pathIsDir readDir
         root_path node = some r →
       ∃ items, r = .list ⟨true, items⟩) := by
  refine ⟨?_, ?_, ?_, ?_⟩
  · intro jaro pas cam ctx node field r h
    unfold field_type_completion at h
    obtain ⟨items, _, hr⟩ := Option.map_eq_some'.mp h
    exact ⟨items, hr.symm⟩
  · intro jaro parentOf prevNamedSibling position prototypes node r h
    unfold prototype_parents_completion at h
    obtain ⟨items, _, hr⟩ := Option.map_eq_some'.mp h
    exact ⟨items, hr.symm⟩
  · intro jaro pas parentOf position classes node key_node r h
    unfold components_completion at h
    obtain ⟨items, _, hr⟩ := Option.map_eq_some'.mp h
    exact ⟨items, hr.symm⟩
  · intro jaro pathExists pathIsDir readDir root_path node r h
    unfold sprite_field_type_completion at h
    obtain ⟨paths, _, hr⟩ := Option.bind_eq_some.mp h
    split at hr
    · exact ⟨paths, (Option.some_inj.mp hr).symm⟩
    · exact absurd hr (by simp)

/-- C7 witness: each capped handler applied at a concrete input on
which it produces a response. -/
theorem C7_capped_responses_incomplete_witness :
    (∃ r, field_type_completion jaro0 (fun s => s) (fun s => s) ctx0
        (sampleLeaf "block_mapping_pair" "") boolField = some r ∧
      ∃ items, r = .list ⟨true, items⟩) ∧
    (∃ r, prototype_parents_completion jaro0 (fun _ => some parentsMappingNode)
        (fun _ => none) ⟨0, 0⟩ [] parentPairNode = some r ∧
      ∃ items, r = .list ⟨true, items⟩) ∧
    (∃ r, components_completion jaro0 (fun s => s)
        (fun _ => some componentsPairNode) ⟨0, 0⟩ []
        (sampleLeaf "block_mapping_pair" "") (sampleLeaf "flow_node" "type")
        = some r ∧
      ∃ items, r = .list ⟨true, items⟩) ∧
    (∃ r, sprite_field_type_completion jaro0 (fun _ => true) (fun _ => true)
        (fun _ => some [("a.rsi", false)]) "/root/"
        (sampleLeaf "block_mapping_pair" "") = some r ∧
      ∃ items, r = .list ⟨true, items⟩) :=
  ⟨⟨_, rfl, C7_capped_responses_incomplete.1 jaro0 (fun s => s) (fun s => s)
      ctx0 (sampleLeaf "block_mapping_pair" "") boolField _ rfl⟩,
   ⟨_, rfl, C7_capped_responses_incomplete.2.1 jaro0
      (fun _ => some parentsMappingNode) (fun _ => none) ⟨0, 0⟩ []
      parentPairNode _ rfl⟩,
   ⟨_, rfl, C7_capped_responses_incomplete.2.2.1 jaro0 (fun s => s)
      (fun _ => some componentsPairNode) ⟨0, 0⟩ []
      (sampleLeaf "block_mapping_pair" "") (sampleLeaf "flow_node" "type")
      _ rfl⟩,
   ⟨_, rfl, C7_capped_responses_incomplete.2.2.2 jaro0 (fun _ => true)
      (fun _ => true) (fun _ => some [("a.rsi", false)]) "/root/"
      (sampleLeaf "block_mapping_pair" "") _ rfl⟩⟩

/-! ## C8: the completion search-column window -/

theorem mem_dropWhile_of_neg {p : Char → Bool} {c : Char} :
    ∀ {l : List Char}, c ∈ l → p c = false → c ∈ l.dropWhile p := by
  intro l
  induction l with
  | nil => intro h _; exact absurd h (List.not_mem_nil c)
  | cons a l ih =>
    intro h hc
    rw [List.dropWhile_cons]
    split
    · next ha =>
      rcases List.mem_cons.mp h with h' | h'
      · subst h'; rw [hc] at ha; exact absurd ha (by simp)
      · exact ih h' hc
    · exact h

theorem mem_trim_of_nonws {c : Char} {l : List Char}
    (h : c ∈ l) (hc : rustIsWhitespace c = false) : c ∈ rustTrimList l := by
  unfold rustTrimList
  rw [List.mem_reverse]
  exact mem_dropWhile_of_neg (List.mem_reverse.mpr (mem_dropWhile_of_neg h hc)) hc

theorem mem_of_mem_trim {c : Char} {l : List Char}
    (h : c ∈ rustTrimList l) : c ∈ l := by
  unfold rustTrimList at h
  rw [List.mem_reverse] at h
  exact (List.dropWhile_sublist _).mem
    (List.mem_reverse.mp ((List.dropWhile_sublist _).mem h))

theorem singleton_dash_of_len_all {l : List Char}
    (h1 : l.length = 1) (h2 : l.all (· == '-') = true) : l = ['-'] := by
  cases l with
  | nil => simp at h1
  | cons a l =>
    cases l with
    | nil =>
      simp only [List.all_cons, List.all_nil, Bool.and_true, beq_iff_eq] at h2
      rw [h2]
    | cons b l => simp at h1

theorem getD_takeWhile_dash {l : List Char} (h : '-' ∈ l) :
    l.getD (l.takeWhile (· ≠ '-')).length ' ' = '-' := by
  induction l with
  | nil => exact absurd h (List.not_mem_nil _)
  | cons a l ih =>
    rw [List.takeWhile_cons]
    by_cases ha : a = '-'
    · subst ha
      simp
    · have hd : (decide ¬a = '-') = true := by simpa using ha
      rw [hd]
      simp only [if_true, List.length_cons, List.getD_cons_succ]
      exact ih (by rcases List.mem_cons.mp h with h' | h'
                   · exact absurd h'.symm ha
                   · exact h')

theorem gcPhase1_lt : ∀ (b pos : Nat), pos < b →
    gcPhase1 0 pos b b = (0, pos, pos) := by
  intro b
  induction b with
  | zero => intro pos h; omega
  | succ b ih =>
    intro pos h
    simp only [gcPhase1, Nat.add_sub_cancel]
    rw [if_neg (by omega)]
    by_cases hb : b = pos
    · rw [if_pos hb, hb]
    · rw [if_neg hb, if_neg (by omega)]
      exact ih pos (by omega)

theorem gcPhase2_ws_scan (chars : List Char) :
    ∀ (k b₀ scol ecol : Nat),
      (∀ i < k, rustIsWhitespace (chars.getD (b₀ + i) ' ') = true) →
      gcPhase2 chars 0 (b₀ + k) (scol + k) (ecol + k) false
        = gcPhase2 chars 0 b₀ scol ecol false := by
  intro k
  induction k with
  | zero => intro b₀ scol ecol _; rfl
  | succ k ih =>
    intro b₀ scol ecol hws
    have hb : b₀ + (k + 1) = (b₀ + k) + 1 := by omega
    rw [hb, show scol + (k + 1) = (scol + k) + 1 from by omega,
      show ecol + (k + 1) = (ecol + k) + 1 from by omega]
    simp only [gcPhase2, Nat.add_sub_cancel]
    rw [if_neg (by omega), hws k (by omega), if_neg (by simp)]
    exact ih b₀ scol ecol fun i hi => hws i (by omega)

theorem gcPhase2_text_scan (chars : List Char) :
    ∀ (k b₀ scol ecol : Nat),
      (∀ i < k, rustIsWhitespace (chars.getD (b₀ + i) ' ') = false) →
      gcPhase2 chars 0 (b₀ + k) (scol + k) ecol true
        = gcPhase2 chars 0 b₀ scol ecol true := by
  intro k
  induction k with
  | zero => intro b₀ scol ecol _; rfl
  | succ k ih =>
    intro b₀ scol ecol hws
    rw [show b₀ + (k + 1) = (b₀ + k) + 1 from by omega,
      show scol + (k + 1) = (scol + k) + 1 from by omega]
    simp only [gcPhase2, Nat.add_sub_cancel]
    rw [if_neg (by omega), hws k (by omega), if_pos (by simp)]
    exact ih b₀ scol ecol fun i hi => hws i (by omega)

theorem gcPhase2_enter_text (chars : List Char) (b₀ scol ecol : Nat)
    (h : rustIsWhitespace (chars.getD b₀ ' ') = false) :
    gcPhase2 chars 0 (b₀ + 1) (scol + 1) ecol false
      = gcPhase2 chars 0 b₀ scol ecol true := by
  simp only [gcPhase2, Nat.add_sub_cancel]
  rw [if_neg (by omega), h, if_pos (by simp)]

theorem gcPhase2_break (chars : List Char) (b₀ scol ecol : Nat)
    (h : rustIsWhitespace (chars.getD b₀ ' ') = true) :
    gcPhase2 chars 0 (b₀ + 1) (scol + 1) ecol true = (scol, ecol) := by
  simp only [gcPhase2, Nat.add_sub_cancel]
  rw [if_neg (by omega), h, if_neg (by simp), if_pos trivial]

theorem chars_getD (pre : List Char) (sp : Char) (rest : List Char) (j : Nat) :
    (pre ++ sp :: rest).getD (pre.length + 1 + j) ' ' = rest.getD j ' ' := by
  rw [List.getD_append_right pre (sp :: rest) ' ' _ (by omega)]
  rw [show pre.length + 1 + j - pre.length = j + 1 from by omega]
  exact List.getD_cons_succ

theorem rest_getD_tail (word tail : List Char) (i : Nat) :
    (word ++ tail).getD (word.length + i) ' ' = tail.getD i ' ' := by
  rw [List.getD_append_right word tail ' ' _ (by omega)]
  congr 1
  omega

theorem ws_getD {l : List Char} {i : Nat} {b : Bool} (hi : i < l.length)
    (hp : ∀ c ∈ l, rustIsWhitespace c = b) :
    rustIsWhitespace (l.getD i ' ') = b := by
  rw [List.getD_eq_getElem l ' ' hi]
  exact hp _ (List.getElem_mem hi)

theorem gcPhase2_window (pre : List Char) (sp : Char) (word gap suf : List Char)
    (hsp : rustIsWhitespace sp = true) (hword : word ≠ [])
    (hwordws : ∀ c ∈ word, rustIsWhitespace c = false)
    (hgapws : ∀ c ∈ gap, rustIsWhitespace c = true) :
    gcPhase2 (pre ++ sp :: (word ++ (gap ++ suf))) 0
      (pre.length + 1 + word.length + gap.length)
      (pre.length + 1 + word.length + gap.length)
      (pre.length + 1 + word.length + gap.length + suf.length) false
    = (pre.length, pre.length + 1 + word.length + suf.length) := by
  obtain ⟨winit, wlast, hw⟩ : ∃ L b, word = L ++ [b] := by
    rcases List.eq_nil_or_concat word with h' | h'
    · exact absurd h' hword
    · simpa [List.concat_eq_append] using h'
  have hwl : word.length = winit.length + 1 := by rw [hw]; simp
  set chars := pre ++ sp :: (word ++ (gap ++ suf)) with hchars
  -- characters of the three scanned regions
  have hgapD : ∀ i < gap.length,
      rustIsWhitespace (chars.getD (pre.length + 1 + word.length + i) ' ') = true := by
    intro i hi
    rw [show pre.length + 1 + word.length + i = pre.length + 1 + (word.length + i)
      from by omega]
    rw [hchars, chars_getD, rest_getD_tail, List.getD_append _ _ _ _ hi]
    exact ws_getD hi hgapws
  have hwlastD :
      rustIsWhitespace (chars.getD (pre.length + 1 + winit.length) ' ') = false := by
    rw [hchars, chars_getD, List.getD_append _ _ _ _ (by omega)]
    rw [hw, List.getD_append_right winit [wlast] ' ' _ (le_refl _)]
    rw [Nat.sub_self]
    exact hwordws wlast (by rw [hw]; simp)
  have hwinitD : ∀ i < winit.length,
      rustIsWhitespace (chars.getD (pre.length + 1 + i) ' ') = false := by
    intro i hi
    rw [hchars, chars_getD, List.getD_append _ _ _ _ (by omega)]
    have : word.getD i ' ' = winit.getD i ' ' := by
      rw [hw]; exact List.getD_append _ _ _ _ hi
    rw [this]
    exact ws_getD hi fun c hc => hwordws c (by rw [hw]; exact List.mem_append_left _ hc)
  have hspD : rustIsWhitespace (chars.getD pre.length ' ') = true := by
    rw [hchars, List.getD_append_right pre _ ' ' _ (le_refl _), Nat.sub_self]
    rw [List.getD_cons_zero]
    exact hsp
  -- step A: scan the whitespace gap
  have hA : gcPhase2 chars 0
      (pre.length + 1 + word.length + gap.length)
      (pre.length + 1 + word.length + gap.length)
      (pre.length + 1 + word.length + gap.length + suf.length) false
      = gcPhase2 chars 0 (pre.length + 1 + word.length)
        (pre.length + 1 + word.length)
        (pre.length + 1 + word.length + suf.length) false := by
    have := gcPhase2_ws_scan chars gap.length (pre.length + 1 + word.length)
      (pre.length + 1 + word.length) (pre.length + 1 + word.length + suf.length)
      hgapD
    rw [show pre.length + 1 + word.length + gap.length + suf.length
      = pre.length + 1 + word.length + suf.length + gap.length from by omega]
    exact this
  -- step B: the last word character sets the text flag
  have hB : gcPhase2 chars 0 (pre.length + 1 + word.length)
      (pre.length + 1 + word.length)
      (pre.length + 1 + word.length + suf.length) false
      = gcPhase2 chars 0 (pre.length + 1 + winit.length)
        (pre.length + 1 + winit.length)
        (pre.length + 1 + word.length + suf.length) true := by
    rw [show pre.length + 1 + word.length = (pre.length + 1 + winit.length) + 1
      from by omega]
    exact gcPhase2_enter_text chars _ _ _ hwlastD
  -- step C: scan the rest of the word
  have hC : gcPhase2 chars 0 (pre.length + 1 + winit.length)
      (pre.length + 1 + winit.length)
      (pre.length + 1 + word.length + suf.length) true
      = gcPhase2 chars 0 (pre.length + 1) (pre.length + 1)
        (pre.length + 1 + word.length + suf.length) true :=
    gcPhase2_text_scan chars winit.length (pre.length + 1) (pre.length + 1)
      (pre.length + 1 + word.length + suf.length) hwinitD
  -- step D: the whitespace before the word breaks the loop
  have hD : gcPhase2 chars 0 (pre.length + 1) (pre.length + 1)
      (pre.length + 1 + word.length + suf.length) true
      = (pre.length, pre.length + 1 + word.length + suf.length) :=
    gcPhase2_break chars pre.length pre.length _ hspD
  rw [hA, hB, hC, hD]

/-- C8 counterexample.  (i) On a line that is empty after trimming
(cursor at column 5 of an empty document) the code returns `(4, 4)`,
not the cursor column `(5, 5)` the claim requires.  (ii) On the line
`foo` with the cursor at column 2, the span of the text containing the
cursor starts at column 0, but the code returns `(1, 2)`. -/
theorem C8_counterexample :
    rustTrimList ((rustLines "").getD 0 "").data = [] ∧
    get_columns ⟨0, 5⟩ "" = (4, 4) ∧
    (4, 4) ≠ ((5 : Nat), (5 : Nat)) ∧
    get_columns ⟨0, 2⟩ "foo" = (1, 2) ∧
    (1 : Nat) ≠ 0 := by
  refine ⟨by decide, by decide, by decide, by decide, by decide⟩

/-- C8 (amended).  The window computed by `get_columns` obeys:
(1) on a line empty after trimming, both columns equal the cursor
column minus one (zero at column zero); (2) on a line whose trim is a
bare `-`, both columns equal the column of the `-` character; (3) on
any other line of the shape `pre ⧺ ws ⧺ word ⧺ gap ⧺ suf` — a
whitespace-preceded non-whitespace run `word`, a whitespace `gap`, a
non-empty remainder `suf` — with the cursor placed right after the
gap, the first column is the word's start column and the second is the
line length minus the gap length minus one. -/
theorem C8_get_columns_window :
    (∀ (position : Position) (src : String),
      rustTrimList ((rustLines src).getD position.line "").data = [] →
      get_columns position src
        = (position.character - 1, position.character - 1)) ∧
    (∀ (position : Position) (src : String),
      rustTrimList ((rustLines src).getD position.line "").data = ['-'] →
      get_columns position src
        = ((((rustLines src).getD position.line "").data.takeWhile
            (· ≠ '-')).length,
           (((rustLines src).getD position.line "").data.takeWhile
            (· ≠ '-')).length) ∧
      ((rustLines src).getD position.line "").data.getD
        ((((rustLines src).getD position.line "").data.takeWhile
          (· ≠ '-')).length) ' ' = '-') ∧
    (∀ (position : Position) (src : String) (pre : List Char) (sp : Char)
       (word gap suf : List Char),
      ((rustLines src).getD position.line "").data
        = pre ++ sp :: (word ++ (gap ++ suf)) →
      rustIsWhitespace sp = true →
      word ≠ [] →
      (∀ c ∈ word, rustIsWhitespace c = false) →
      (∀ c ∈ gap, rustIsWhitespace c = true) →
      suf ≠ [] →
      position.character = pre.length + 1 + word.length + gap.length →
      rustTrimList ((rustLines src).getD position.line "").data ≠ ['-'] →
      get_columns position src
        = (pre.length + 1, pre.length + word.length + suf.length)) := by
  refine ⟨?_, ?_, ?_⟩
  · intro position src h
    simp only [get_columns, h]
    simp only [List.length_nil, if_pos rfl]
    by_cases h0 : position.character = 0
    · simp [h0]
    · simp [h0]
  · intro position src h
    have hdash : '-' ∈ ((rustLines src).getD position.line "").data :=
      mem_of_mem_trim (h ▸ List.mem_singleton.mpr rfl)
    refine ⟨?_, getD_takeWhile_dash hdash⟩
    simp only [get_columns, h]
    norm_num
  · intro position src pre sp word gap suf hchars hsp hword hwordws hgapws
      hsuf hpos hnotdash
    have hne : rustTrimList ((rustLines src).getD position.line "").data ≠ [] := by
      obtain ⟨c, hc⟩ := List.exists_mem_of_ne_nil word hword
      have hcin : c ∈ ((rustLines src).getD position.line "").data := by
        rw [hchars]
        exact List.mem_append_right _
          (List.mem_cons_of_mem sp (List.mem_append_left _ hc))
      intro hnil
      have := mem_trim_of_nonws hcin (hwordws c hc)
      rw [hnil] at this
      exact absurd this (List.not_mem_nil c)
    have hnotbare : ¬ (((rustTrimList ((rustLines src).getD position.line
        "").data).length = 1) ∧
        (rustTrimList ((rustLines src).getD position.line "").data).all
          (· == '-') = true) :=
      fun ⟨h1, h2⟩ => hnotdash (singleton_dash_of_len_all h1 h2)
    have hn : (pre ++ sp :: (word ++ (gap ++ suf))).length
        = pre.length + 1 + word.length + gap.length + suf.length := by
      simp [List.length_append]
      omega
    have hsuflen : 0 < suf.length := List.length_pos.mpr hsuf
    simp only [get_columns, hchars]
    rw [if_neg (by
      rw [← hchars]
      intro hlen
      exact hne (List.length_eq_zero.mp hlen))]
    rw [if_neg (by rw [← hchars]; exact hnotbare)]
    rw [hn, hpos]
    have h1 := gcPhase1_lt
      (pre.length + 1 + word.length + gap.length + suf.length)
      (pre.length + 1 + word.length + gap.length) (by omega)
    have h2 := gcPhase2_window pre sp word gap suf hsp hword hwordws hgapws
    simp only [h1, h2, Prod.mk.injEq]
    exact ⟨trivial, by omega⟩

/-- C8 witness: the window on the line `a bc x` with the cursor at
column 4 (right after the run `bc`). -/
theorem C8_get_columns_window_witness :
    get_columns ⟨0, 4⟩ "a bc x" = (2, 5) :=
  C8_get_columns_window.2.2 ⟨0, 4⟩ "a bc x" ['a'] ' ' ['b', 'c'] [] [' ', 'x']
    (by decide) (by decide) (by decide) (by decide) (by decide) (by decide)
    (by decide) (by decide)

end RobustLsp
